import Mathlib

/-! Verification of the batch-translation pipeline of this repository.

Shallow embedding of `src/utility.py`, `src/translate_csv_llm.py` and
`main.py`.  Python dicts are modelled as association lists with
overwrite-on-insert (`dinsert` / `dlookup`); the remote LLM invocation
(`pipeline.invoke`) is modelled as an oracle `Nat → Nat → Option Resp`
giving the outcome of each (token-batch number, retry number) call, where
`none` models a raised exception and `some resp` a structured response;
the tiktoken counter `count_tokens` is an abstract cost function
`String → Nat`; `None`/`NaN` cells of the input column are modelled as
`none : Option String`. -/

namespace Esp2Dsd

/-! ### Python `dict` as an association list (first occurrence wins on lookup,
overwrite-in-place on insert, append when the key is new) -/

def dlookup {α β : Type} [DecidableEq α] (m : List (α × β)) (k : α) : Option β :=
  (m.find? (fun p => decide (p.1 = k))).map Prod.snd

def dinsert {α β : Type} [DecidableEq α] : List (α × β) → α → β → List (α × β)
  | [], k, v => [(k, v)]
  | p :: m, k, v => if p.1 = k then (k, v) :: m else p :: dinsert m k v

/-! ### Kernel-computable models of the Python string methods used by the
sources (`str.strip`, `str.lstrip`, `str.startswith`, `str.lower`,
`str.replace`), implemented over the character list so that concrete
witnesses evaluate inside the kernel -/

/-- Python `str.strip()`: remove leading and trailing whitespace. -/
def pyStrip (s : String) : String :=
  String.mk (((s.toList.dropWhile Char.isWhitespace).reverse.dropWhile
    Char.isWhitespace).reverse)

/-- Python `str.lstrip()`: remove leading whitespace. -/
def pyLStrip (s : String) : String :=
  String.mk (s.toList.dropWhile Char.isWhitespace)

/-- Python `s.startswith(pre)`. -/
def pyStartsWith (s pre : String) : Bool :=
  pre.toList.isPrefixOf s.toList

/-- Python `str.lower()`. -/
def pyToLower (s : String) : String :=
  String.mk (s.toList.map Char.toLower)

/-- Python `key.replace("_", " ")`: since both the pattern and the
replacement are single characters, this is a per-character map. -/
def replaceUnderscores (s : String) : String :=
  String.mk (s.toList.map (fun c => if c = '_' then ' ' else c))

/-! ### `src/utility.py` -/

/-- `normalize_text_list` (utility.py lines 94-103): `None`/`NaN` become `""`,
everything else is kept (the model's cells are already strings, so `str(t)`
is the identity). -/
def normalize_text_list (l : List (Option String)) : List String :=
  l.map (fun t => match t with | none => "" | some s => s)

/-- A `{"id": i, "text": t}` work item of translate_csv_llm.py. -/
structure Item where
  id : Nat
  text : String
deriving DecidableEq, Repr

/-- `chunk_by_token_limit`'s loop state recursion (utility.py lines 150-194):
`batch` is the accumulated batch, `cur` the accumulated token count. -/
def chunkAux (cost : String → Nat) (maxTokens : Nat) :
    List Item → List Item → Nat → List (List Item)
  | [], batch, _ => if batch.isEmpty then [] else [batch]
  | it :: rest, batch, cur =>
    if maxTokens < cost it.text then
      (if batch.isEmpty then [] else [batch]) ++ [it] :: chunkAux cost maxTokens rest [] 0
    else if maxTokens < cur + cost it.text then
      batch :: chunkAux cost maxTokens rest [it] (cost it.text)
    else
      chunkAux cost maxTokens rest (batch ++ [it]) (cur + cost it.text)

/-- `chunk_by_token_limit(items, max_tokens, llm_model)` for the
`{"id": ..., "text": ...}` item shape used by `call_llm_api_batch`;
`count_tokens(text, llm_model)` is abstracted into `cost`. -/
def chunk_by_token_limit (items : List Item) (maxTokens : Nat) (cost : String → Nat) :
    List (List Item) :=
  chunkAux cost maxTokens items [] 0

/-- The `input_suffix` literal of `build_prompt_map` (utility.py line 215). -/
def inputSuffix : String := "【入力テキスト】:{text}"

/-- `build_prompt_map(config)` (utility.py lines 209-234) over the `[LLM]`
section items (configparser lower-cases keys).  `llm_cfg["PROMPT_TEMPLATE"]`
raises `KeyError` when absent, modelled by `none`. -/
def build_prompt_map (cfg : List (String × String)) : Option (List (String × String)) :=
  match dlookup cfg "prompt_template" with
  | none => none
  | some bt =>
    some (cfg.foldl
      (fun pm kv =>
        if pyStartsWith kv.1 "prompt_" ∧ kv.1 ≠ "prompt_template" then
          dinsert pm (replaceUnderscores (kv.1.drop 7))
            (pyLStrip bt ++ pyLStrip kv.2 ++ inputSuffix)
        else pm)
      [])

/-- `PROMPT_MAP.get(record_type, PROMPT_MAP["others"])`
(translate_csv_llm.py line 133): the default argument
`PROMPT_MAP["others"]` is evaluated eagerly, so the whole expression raises
(`none`) whenever `"others"` is absent, even on an exact match. -/
def resolvePrompt (pm : List (String × String)) (rt : String) : Option String :=
  match dlookup pm "others" with
  | none => none
  | some d => some ((dlookup pm rt).getD d)

/-- `PLUGIN_EXTENSIONS` (utility.py line 6); the Python set is modelled as a
list, membership is identical. -/
def PLUGIN_EXTENSIONS : List String := [".esp", ".esm", ".esl"]

/-- `pathlib.PurePath.suffix` of a file name: the part from the last dot,
unless that dot is the first or the last character. -/
def pySuffix (name : String) : String :=
  let cs := name.toList
  let dots := (List.range cs.length).filter (fun i => cs.get? i = some '.')
  match dots.getLast? with
  | none => ""
  | some i => if 0 < i ∧ i + 1 < cs.length then String.mk (cs.drop i) else ""

/-- The modlist.txt parsing loop of `find_mod_plugins_from_profile`
(utility.py lines 63-71): keep stripped nonempty lines starting with `"+"`,
drop the marker, preserving order. -/
def parseModlist (lines : List String) : List String :=
  lines.filterMap (fun l =>
    let s := pyStrip l
    if s = "" then none
    else if pyStartsWith s "+" then some (s.drop 1) else none)

/-- The resolved path of a plugin file inside a mod directory
(`base_path/mods/mod_name/file` followed by `.resolve()`), modelled
abstractly as `modName ++ "/" ++ fname`. -/
def pluginPath (modName fname : String) : String := modName ++ "/" ++ fname

/-- The inner `for file in mod_folder_path.iterdir()` loop of
`find_mod_plugins_from_profile` (utility.py lines 83-86): insert
`filename → path` only when the suffix is a plugin extension and the
filename is not already present (first wins). -/
def processModDir (listing : List String) (modName : String)
    (pm : List (String × String)) : List (String × String) :=
  listing.foldl
    (fun pm fname =>
      if pyToLower (pySuffix fname) ∈ PLUGIN_EXTENSIONS then
        if (dlookup pm fname).isSome then pm
        else pm ++ [(fname, pluginPath modName fname)]
      else pm)
    pm

/-- `find_mod_plugins_from_profile` (utility.py lines 52-90), as the
`plugin_map` it builds.  The filesystem is abstracted as
`fs : String → Option (List String)`: the listing of a mod directory, or
`none` when the directory is missing / not a directory (skipped silently).
The Python function returns `list(plugin_map.values())`; the claims are
about the map itself. -/
def find_mod_plugins_from_profile (fs : String → Option (List String))
    (lines : List String) : List (String × String) :=
  (parseModlist lines).foldl
    (fun pm modName =>
      match fs modName with
      | none => pm
      | some listing => processModDir listing modName pm)
    []

/-- Whether mod directory `modName` offers plugin file `fname`: the
directory exists and lists `fname`, and `fname` carries a recognized
plugin extension (case-insensitively). -/
def modHasPlugin (fs : String → Option (List String)) (modName fname : String) : Bool :=
  match fs modName with
  | none => false
  | some listing =>
      decide (fname ∈ listing) && decide (pyToLower (pySuffix fname) ∈ PLUGIN_EXTENSIONS)

/-! ### `src/translate_csv_llm.py` -/

/-- A structured remote response: `result.translations` as `(id, text)`
pairs. -/
abbrev Resp := List (Nat × String)

/-- One `pipeline.invoke` outcome: `none` = exception caught by the
`except` branch, `some resp` = structured response. -/
abbrev Attempt := Option Resp

/-- The `TranslationCache._cache` dict, keyed by `(record_type, text)`. -/
abbrev Cache := List ((String × String) × String)

/-- `TranslationCache.get` (translate_csv_llm.py lines 29-30). -/
def cacheGet (c : Cache) (rt t : String) : Option String := dlookup c (rt, t)

/-- `TranslationCache.set` (translate_csv_llm.py lines 32-33). -/
def cacheSet (c : Cache) (rt t tr : String) : Cache := dinsert c (rt, t) tr

/-- The `for item in result.translations: final_results[item.id] = item.text`
loop of `translate_with_retry` (lines 70-72). -/
def applyResp (acc : List (Nat × String)) (resp : Resp) : List (Nat × String) :=
  resp.foldl (fun m p => dinsert m p.1 p.2) acc

/-- The `remaining = [item for item in remaining if item["id"] not in
returned_ids]` filter of `translate_with_retry` (lines 74-77). -/
def removeReturned (resp : Resp) (remaining : List Item) : List Item :=
  remaining.filter (fun it => decide (it.id ∉ resp.map Prod.fst))

/-- `translate_with_retry` (translate_csv_llm.py lines 52-86).  `attempts`
lists the predetermined outcome of each potential `pipeline.invoke` of the
`for retry in range(MAX_RETRY + 1)` loop; the loop breaks as soon as
`remaining` is empty; an exception (`none`) consumes the attempt and
`continue`s.  Returns `(final_results, remaining, number of invocations)`. -/
def translate_with_retry : List Attempt → List Item → List (Nat × String) → Nat →
    List (Nat × String) × List Item × Nat
  | [], remaining, acc, calls => (acc, remaining, calls)
  | a :: rest, remaining, acc, calls =>
    if remaining.isEmpty then (acc, remaining, calls)
    else
      match a with
      | none => translate_with_retry rest remaining acc (calls + 1)
      | some resp =>
          translate_with_retry rest (removeReturned resp remaining)
            (applyResp acc resp) (calls + 1)

/-- The interface contract of the remote capability (spec §6: a response
covers a subset of the ids of the currently requested set), stated along
the exact execution of `translate_with_retry`: each structured response of
the attempt sequence only returns ids of the `remaining` set it was asked
to translate.  Executable so that witnesses can discharge it by `decide`. -/
def subsetRunB : List Attempt → List Item → Bool
  | [], _ => true
  | a :: rest, remaining =>
    if remaining.isEmpty then true
    else
      match a with
      | none => subsetRunB rest remaining
      | some resp =>
        ((resp.map Prod.fst).all fun k => decide (k ∈ remaining.map Item.id)) &&
          subsetRunB rest (removeReturned resp remaining)

/-- The failure marker written for unresolved items
(translate_csv_llm.py line 161): `f"[翻訳失敗: {original_text}]"`. -/
def failMarker (t : String) : String := "[翻訳失敗: " ++ t ++ "]"

/-- Result record of `call_llm_api_batch`, instrumented with the number of
remote invocations and of `translation_cache.get` calls performed. -/
structure BatchOut where
  output : List String
  cache : Cache
  remoteCalls : Nat
  cacheReads : Nat
deriving DecidableEq, Repr

/-- `safe_text_list` (line 91). -/
def safeOf (textList : List (Option String)) : List String := normalize_text_list textList

/-- `non_empty_items` (lines 94-97): `(i, t)` with `t.strip() != ""`. -/
def nonEmptyOf (safe : List String) : List (Nat × String) :=
  safe.enum.filter (fun p => decide (pyStrip p.2 ≠ ""))

/-- The cache-check loop (lines 104-112), producing
`(translated_map, uncached_items, number of cache.get calls)`. -/
def cacheScan (c0 : Cache) (rt : String) (nonEmpty : List (Nat × String)) :
    List (Nat × String) × List (Nat × String) × Nat :=
  nonEmpty.foldl
    (fun st p =>
      match cacheGet c0 rt p.2 with
      | some c => (dinsert st.1 p.1 c, st.2.1, st.2.2 + 1)
      | none => (st.1, st.2.1 ++ [p], st.2.2 + 1))
    ([], [], 0)

/-- `uncached_items` for a given input list. -/
def uncachedOf (c0 : Cache) (rt : String) (textList : List (Option String)) :
    List (Nat × String) :=
  (cacheScan c0 rt (nonEmptyOf (safeOf textList))).2.1

/-- The token batches (line 139-142): `chunk_by_token_limit(input_items,
MAX_INPUT_TOKENS, LLM_MODEL)` over `input_items = [{"id": i, "text": t} for
(i, t) in uncached_items]`. -/
def chunksOf (cost : String → Nat) (maxTokens : Nat) (uncached : List (Nat × String)) :
    List (List Item) :=
  chunk_by_token_limit (uncached.map (fun p => ⟨p.1, p.2⟩)) maxTokens cost

/-- `original_id_text = {i: t for i, t in uncached_items}` (line 129). -/
def origIdTextOf (uncached : List (Nat × String)) : List (Nat × String) :=
  uncached.foldl (fun m p => dinsert m p.1 p.2) []

/-- The sequence of `pipeline.invoke` outcomes available to token batch
`bno` across its `MAX_RETRY + 1` loop iterations. -/
def attemptsFor (oracle : Nat → Nat → Attempt) (maxRetry : Nat) (bno : Nat) :
    List Attempt :=
  (List.range (maxRetry + 1)).map (oracle bno)

/-- The §6 interface contract at the `call_llm_api_batch` level: every
structured response delivered for token batch `bno = b + 1` only carries
ids of that batch.  This is a consequence of the contract (each request of
a batch is a subset of the batch), weakened enough to be executable. -/
def oracleRespectsBatches (oracle : Nat → Nat → Attempt) (maxRetry : Nat)
    (chunks : List (List Item)) : Bool :=
  chunks.enum.all fun be =>
    (attemptsFor oracle maxRetry (be.1 + 1)).all fun a =>
      match a with
      | none => true
      | some resp => (resp.map Prod.fst).all fun k => decide (k ∈ be.2.map Item.id)

/-- The `for id, text in result_map.items()` store loop (lines 153-156):
update `translated_map` and write the cache under
`original_id_text[id]`; a missing id raises `KeyError` (`none`). -/
def storeResults (rt : String) (origIdText : List (Nat × String))
    (st : List (Nat × String) × Cache) (rm : List (Nat × String)) :
    Option (List (Nat × String) × Cache) :=
  rm.foldlM
    (fun st p =>
      match dlookup origIdText p.1 with
      | none => none
      | some orig => some (dinsert st.1 p.1 p.2, cacheSet st.2 rt orig p.2))
    st

/-- The `for item in failed_items` loop (lines 159-161): write the failure
marker under the item's id. -/
def storeFailed (tm : List (Nat × String)) (failed : List Item) : List (Nat × String) :=
  failed.foldl (fun tm it => dinsert tm it.id (failMarker it.text)) tm

/-- The `for token_batch_no, item_batch in enumerate(..., start=1)` loop
(lines 139-161).  State: `(translated_map, cache, remote call count)`. -/
def processBatches (oracle : Nat → Nat → Attempt) (maxRetry : Nat) (rt : String)
    (origIdText : List (Nat × String)) :
    List (List Item) → Nat → List (Nat × String) × Cache × Nat →
    Option (List (Nat × String) × Cache × Nat)
  | [], _, st => some st
  | batch :: rest, bno, st =>
    let r := translate_with_retry (attemptsFor oracle maxRetry bno) batch [] 0
    match storeResults rt origIdText (st.1, st.2.1) r.1 with
    | none => none
    | some tc =>
        processBatches oracle maxRetry rt origIdText rest (bno + 1)
          (storeFailed tc.1 r.2.1, tc.2, st.2.2 + r.2.2)

/-- The final order restoration (lines 163-171):
`translated_map.get(i, text)` with the original text as default. -/
def restoreOutput (safe : List String) (tm : List (Nat × String)) : List String :=
  safe.enum.map (fun p => if pyStrip p.2 = "" then "" else (dlookup tm p.1).getD p.2)

/-- The order restoration of the all-cache-hit early return (lines 115-122):
`translated_map.get(i)` has no default (Python would yield `None`; the
branch guarantees every non-empty index is present, so the `""` default is
never consulted). -/
def restoreCacheHit (safe : List String) (tm : List (Nat × String)) : List String :=
  safe.enum.map (fun p => if pyStrip p.2 = "" then "" else (dlookup tm p.1).getD "")

/-- `call_llm_api_batch(text_list, record_type, batch_no, translation_cache)`
(translate_csv_llm.py lines 90-173).  `none` models an uncaught exception
(`KeyError` from `PROMPT_MAP["others"]` on line 133 or from
`original_id_text[id]` on line 156). -/
def call_llm_api_batch (cost : String → Nat) (maxTokens maxRetry : Nat)
    (promptMap : List (String × String)) (oracle : Nat → Nat → Attempt)
    (textList : List (Option String)) (rt : String) (c0 : Cache) : Option BatchOut :=
  let safe := safeOf textList
  let nonEmpty := nonEmptyOf safe
  if nonEmpty.isEmpty then
    some ⟨List.replicate safe.length "", c0, 0, 0⟩
  else
    let scan := cacheScan c0 rt nonEmpty
    if scan.2.1.isEmpty ∧ scan.1.length = nonEmpty.length then
      some ⟨restoreCacheHit safe scan.1, c0, 0, scan.2.2⟩
    else
      match resolvePrompt promptMap rt with
      | none => none
      | some _ =>
        match processBatches oracle maxRetry rt (origIdTextOf scan.2.1)
            (chunksOf cost maxTokens scan.2.1) 1 (scan.1, c0, 0) with
        | none => none
        | some fin => some ⟨restoreOutput safe fin.1, fin.2.1, fin.2.2, scan.2.2⟩

/-! ### `main.py` -/

/-- A resolved plugin as `main` observes it: its file name and the result
of `plugin.stat().st_mtime` (`none` = `stat` raised). -/
structure Plugin where
  name : String
  mtime : Option Int
deriving DecidableEq, Repr

/-- `save_current_timestamps` (utility.py lines 236-246): one
`name<TAB>mtime` line per plugin whose `stat` succeeds; failures are
skipped (`continue`). -/
def save_current_timestamps (plugins : List Plugin) : List (String × Int) :=
  plugins.filterMap (fun p => p.mtime.map (fun m => (p.name, m)))

/-- The changed-plugin selection loop of `main` (main.py lines 67-76):
absent from the snapshot or differing mtime means changed; `stat` failure
skips the plugin. -/
def updated_plugins (prev : List (String × Int)) (plugins : List Plugin) : List Plugin :=
  plugins.filter (fun p =>
    match p.mtime with
    | none => false
    | some m =>
      match dlookup prev p.name with
      | none => true
      | some pm => decide (m ≠ pm))

/-- The denylist filter of `main` (main.py lines 79-83); the Python test
`plugin.name not in exclude_plugins` (a substring test against the config
string) is abstracted as a predicate `excl`. -/
def filtered_plugins (excl : String → Bool) (plugins : List Plugin) : List Plugin :=
  plugins.filter (fun p => !excl p.name)

/-- The outcome of one `main` run: the plugins submitted to the worker
pool, and the snapshot written at run end (`none` = `main` returned before
`save_current_timestamps`, leaving the file untouched). -/
structure RunOutcome where
  processed : List Plugin
  snapshot : Option (List (String × Int))
deriving DecidableEq, Repr

/-- The tail of `main` (main.py lines 64-100) after plugin resolution:
change detection, exclusion, the early return on an empty filtered list,
parallel processing (which cannot alter the plugin list), and the final
`save_current_timestamps(TIMESTAMP_FILE, plugin_list)` over the FULL
resolved list. -/
def mainRun (prev : List (String × Int)) (excl : String → Bool)
    (pluginList : List Plugin) : RunOutcome :=
  let upd := updated_plugins prev pluginList
  let filt := filtered_plugins excl upd
  if filt.isEmpty then ⟨[], none⟩
  else ⟨filt, some (save_current_timestamps pluginList)⟩

/-! ### Lemmas about the dictionary model -/

@[simp] theorem dlookup_nil {α β : Type} [DecidableEq α] (k : α) :
    dlookup ([] : List (α × β)) k = none := rfl

theorem dlookup_cons {α β : Type} [DecidableEq α] (p : α × β) (m : List (α × β)) (k : α) :
    dlookup (p :: m) k = if p.1 = k then some p.2 else dlookup m k := by
  by_cases h : p.1 = k
  · simp [dlookup, List.find?_cons_of_pos, h]
  · rw [dlookup, List.find?_cons_of_neg _ (by simp [h]), if_neg h]; rfl

@[simp] theorem dlookup_dinsert_self {α β : Type} [DecidableEq α]
    (m : List (α × β)) (k : α) (v : β) : dlookup (dinsert m k v) k = some v := by
  induction m with
  | nil => simp [dinsert, dlookup_cons]
  | cons p m ih =>
    by_cases h : p.1 = k
    · simp [dinsert, h, dlookup_cons]
    · simp [dinsert, h, dlookup_cons, ih]

theorem dlookup_dinsert_ne {α β : Type} [DecidableEq α]
    (m : List (α × β)) (k k0 : α) (v : β) (h : k0 ≠ k) :
    dlookup (dinsert m k v) k0 = dlookup m k0 := by
  induction m with
  | nil => simp [dinsert, dlookup_cons, Ne.symm h]
  | cons p m ih =>
    by_cases hp : p.1 = k
    · simp [dinsert, hp, dlookup_cons, Ne.symm h]
    · rw [dinsert, if_neg hp, dlookup_cons, dlookup_cons, ih]

theorem keys_dinsert {α β : Type} [DecidableEq α] (m : List (α × β)) (k : α) (v : β) :
    (dinsert m k v).map Prod.fst =
      if k ∈ m.map Prod.fst then m.map Prod.fst else m.map Prod.fst ++ [k] := by
  induction m with
  | nil => simp [dinsert]
  | cons p m ih =>
    by_cases hp : p.1 = k
    · simp [dinsert, hp]
    · rw [dinsert, if_neg hp]
      by_cases hm : k ∈ m.map Prod.fst
      · simp only [List.map_cons, ih, if_pos hm]
        rw [if_pos (by simp [hm])]
      · simp only [List.map_cons, ih, if_neg hm]
        rw [if_neg (by
          simp only [List.map_cons, List.mem_cons]
          rintro (hh | hh)
          · exact hp hh.symm
          · exact hm hh)]
        simp

theorem mem_keys_dinsert {α β : Type} [DecidableEq α]
    (m : List (α × β)) (k a : α) (v : β) :
    a ∈ (dinsert m k v).map Prod.fst ↔ a ∈ m.map Prod.fst ∨ a = k := by
  rw [keys_dinsert]
  by_cases h : k ∈ m.map Prod.fst
  · rw [if_pos h]
    constructor
    · exact Or.inl
    · rintro (ha | rfl)
      · exact ha
      · exact h
  · rw [if_neg h]; simp

theorem length_dinsert {α β : Type} [DecidableEq α] (m : List (α × β)) (k : α) (v : β) :
    (dinsert m k v).length =
      if k ∈ m.map Prod.fst then m.length else m.length + 1 := by
  have h := congrArg List.length (keys_dinsert m k v)
  simp only [List.length_map] at h
  by_cases hm : k ∈ m.map Prod.fst
  · rw [if_pos hm] at h ⊢; simpa using h
  · rw [if_neg hm] at h ⊢; simpa using h

theorem nodup_keys_dinsert {α β : Type} [DecidableEq α]
    (m : List (α × β)) (k : α) (v : β) (h : (m.map Prod.fst).Nodup) :
    ((dinsert m k v).map Prod.fst).Nodup := by
  rw [keys_dinsert]
  by_cases hm : k ∈ m.map Prod.fst
  · rw [if_pos hm]; exact h
  · rw [if_neg hm]; simp [List.nodup_append, h, hm]

theorem toFinset_keys_dinsert {α β : Type} [DecidableEq α]
    (m : List (α × β)) (k : α) (v : β) :
    ((dinsert m k v).map Prod.fst).toFinset = insert k (m.map Prod.fst).toFinset := by
  ext a
  simp only [List.mem_toFinset, Finset.mem_insert, mem_keys_dinsert]
  tauto

theorem dlookup_isSome_iff {α β : Type} [DecidableEq α] (m : List (α × β)) (k : α) :
    (dlookup m k).isSome ↔ k ∈ m.map Prod.fst := by
  induction m with
  | nil => simp
  | cons p m ih =>
    rw [dlookup_cons]
    by_cases h : p.1 = k
    · simp [h]
    · simp only [if_neg h, List.map_cons, List.mem_cons, ih]
      constructor
      · exact Or.inr
      · rintro (hh | hh)
        · exact absurd hh.symm h
        · exact hh

theorem dlookup_eq_none_iff {α β : Type} [DecidableEq α] (m : List (α × β)) (k : α) :
    dlookup m k = none ↔ k ∉ m.map Prod.fst := by
  rw [← dlookup_isSome_iff, Option.not_isSome_iff_eq_none]

theorem dlookup_mem {α β : Type} [DecidableEq α]
    {m : List (α × β)} {k : α} {v : β} (h : dlookup m k = some v) : (k, v) ∈ m := by
  induction m with
  | nil => simp [dlookup] at h
  | cons p m ih =>
    rw [dlookup_cons] at h
    by_cases hp : p.1 = k
    · rw [if_pos hp] at h
      cases p
      simp_all
    · rw [if_neg hp] at h
      exact List.mem_cons_of_mem _ (ih h)

theorem dlookup_append_of_some {α β : Type} [DecidableEq α]
    {m1 : List (α × β)} (m2 : List (α × β)) {k : α} {v : β}
    (h : dlookup m1 k = some v) : dlookup (m1 ++ m2) k = some v := by
  induction m1 with
  | nil => simp [dlookup] at h
  | cons p m ih =>
    rw [dlookup_cons] at h
    rw [List.cons_append, dlookup_cons]
    by_cases hp : p.1 = k
    · rwa [if_pos hp] at h ⊢
    · rw [if_neg hp] at h ⊢
      exact ih h

theorem dlookup_append_of_none {α β : Type} [DecidableEq α]
    {m1 : List (α × β)} (m2 : List (α × β)) {k : α}
    (h : dlookup m1 k = none) : dlookup (m1 ++ m2) k = dlookup m2 k := by
  induction m1 with
  | nil => simp
  | cons p m ih =>
    rw [dlookup_cons] at h
    rw [List.cons_append, dlookup_cons]
    by_cases hp : p.1 = k
    · rw [if_pos hp] at h; cases h
    · rw [if_neg hp] at h
      rw [if_neg hp]
      exact ih h

/-! ### Lemmas about `applyResp`, `removeReturned` and `translate_with_retry` -/

@[simp] theorem applyResp_nil (acc : List (Nat × String)) : applyResp acc [] = acc := rfl

theorem applyResp_cons (acc : List (Nat × String)) (p : Nat × String) (resp : Resp) :
    applyResp acc (p :: resp) = applyResp (dinsert acc p.1 p.2) resp := rfl

theorem keys_applyResp_toFinset (acc : List (Nat × String)) (resp : Resp) :
    ((applyResp acc resp).map Prod.fst).toFinset =
      (acc.map Prod.fst).toFinset ∪ (resp.map Prod.fst).toFinset := by
  induction resp generalizing acc with
  | nil => simp
  | cons p resp ih =>
    rw [applyResp_cons, ih, toFinset_keys_dinsert]
    simp [Finset.insert_union, Finset.union_insert]

theorem nodup_keys_applyResp (acc : List (Nat × String)) (resp : Resp)
    (h : (acc.map Prod.fst).Nodup) : ((applyResp acc resp).map Prod.fst).Nodup := by
  induction resp generalizing acc with
  | nil => exact h
  | cons p resp ih => exact ih _ (nodup_keys_dinsert _ _ _ h)

theorem mem_keys_applyResp (acc : List (Nat × String)) (resp : Resp) (a : Nat) :
    a ∈ (applyResp acc resp).map Prod.fst ↔
      a ∈ acc.map Prod.fst ∨ a ∈ resp.map Prod.fst := by
  induction resp generalizing acc with
  | nil => simp
  | cons p resp ih =>
    rw [applyResp_cons, ih, mem_keys_dinsert]
    simp only [List.map_cons, List.mem_cons]
    tauto

theorem dlookup_applyResp_of_not_mem (acc : List (Nat × String)) (resp : Resp) (k : Nat)
    (h : k ∉ resp.map Prod.fst) :
    dlookup (applyResp acc resp) k = dlookup acc k := by
  induction resp generalizing acc with
  | nil => rfl
  | cons p resp ih =>
    rw [applyResp_cons, ih _ (fun hm => h (by simp [hm])),
      dlookup_dinsert_ne _ _ _ _ (fun hk => h (by simp [hk]))]

theorem dlookup_applyResp_some {acc : List (Nat × String)} {resp : Resp} {k : Nat}
    {v : String} (h : dlookup (applyResp acc resp) k = some v) :
    dlookup acc k = some v ∨ (k, v) ∈ resp := by
  induction resp generalizing acc with
  | nil => exact Or.inl h
  | cons p resp ih =>
    rw [applyResp_cons] at h
    rcases ih h with hd | hm
    · by_cases hk : k = p.1
      · subst hk
        rw [dlookup_dinsert_self] at hd
        right
        cases p
        simp_all
      · rw [dlookup_dinsert_ne _ _ _ _ hk] at hd
        exact Or.inl hd
    · exact Or.inr (List.mem_cons_of_mem _ hm)

theorem mem_removeReturned (resp : Resp) (rem : List Item) (it : Item) :
    it ∈ removeReturned resp rem ↔ it ∈ rem ∧ it.id ∉ resp.map Prod.fst := by
  simp [removeReturned, List.mem_filter]

theorem removeReturned_sublist (resp : Resp) (rem : List Item) :
    (removeReturned resp rem).Sublist rem := List.filter_sublist _

theorem ids_removeReturned (resp : Resp) (rem : List Item) :
    (removeReturned resp rem).map Item.id =
      (rem.map Item.id).filter (fun k => decide (k ∉ resp.map Prod.fst)) := by
  induction rem with
  | nil => rfl
  | cons it rem ih =>
    by_cases h : it.id ∈ resp.map Prod.fst
    · simp [removeReturned, List.filter_cons, h] at ih ⊢
      exact ih
    · simp [removeReturned, List.filter_cons, h] at ih ⊢
      exact ih

/-- Unfolding: the retry loop breaks when nothing remains. -/
theorem twr_cons_empty (a : Attempt) (rest : List Attempt) (rem : List Item)
    (acc : List (Nat × String)) (n : Nat) (h : rem.isEmpty) :
    translate_with_retry (a :: rest) rem acc n = (acc, rem, n) := by
  rw [translate_with_retry.eq_def]
  simp [h]

/-- Unfolding: an API exception consumes the attempt and `continue`s. -/
theorem twr_cons_none (rest : List Attempt) (rem : List Item)
    (acc : List (Nat × String)) (n : Nat) (h : ¬ rem.isEmpty = true) :
    translate_with_retry (none :: rest) rem acc n =
      translate_with_retry rest rem acc (n + 1) := by
  rw [translate_with_retry.eq_def]
  simp [h]

/-- Unfolding: a structured response is reconciled by id. -/
theorem twr_cons_some (resp : Resp) (rest : List Attempt) (rem : List Item)
    (acc : List (Nat × String)) (n : Nat) (h : ¬ rem.isEmpty = true) :
    translate_with_retry (some resp :: rest) rem acc n =
      translate_with_retry rest (removeReturned resp rem) (applyResp acc resp) (n + 1) := by
  rw [translate_with_retry.eq_def]
  simp [h]

theorem twr_remaining_sublist (atts : List Attempt) (rem : List Item)
    (acc : List (Nat × String)) (n : Nat) :
    ((translate_with_retry atts rem acc n).2.1).Sublist rem := by
  induction atts generalizing rem acc n with
  | nil => exact List.Sublist.refl _
  | cons a rest ih =>
    by_cases h : rem.isEmpty
    · rw [twr_cons_empty _ _ _ _ _ h]
    · cases a with
      | none => rw [twr_cons_none _ _ _ _ h]; exact ih _ _ _
      | some resp =>
        rw [twr_cons_some _ _ _ _ _ h]
        exact (ih _ _ _).trans (removeReturned_sublist _ _)

theorem twr_keys_mono (atts : List Attempt) (rem : List Item)
    (acc : List (Nat × String)) (n : Nat) (k : Nat) (hk : k ∈ acc.map Prod.fst) :
    k ∈ (translate_with_retry atts rem acc n).1.map Prod.fst := by
  induction atts generalizing rem acc n with
  | nil => exact hk
  | cons a rest ih =>
    by_cases h : rem.isEmpty
    · rw [twr_cons_empty _ _ _ _ _ h]; exact hk
    · cases a with
      | none => rw [twr_cons_none _ _ _ _ h]; exact ih _ _ _ hk
      | some resp =>
        rw [twr_cons_some _ _ _ _ _ h]
        exact ih _ _ _ ((mem_keys_applyResp _ _ _).mpr (Or.inl hk))

theorem twr_results_prov {atts : List Attempt} {rem : List Item}
    {acc : List (Nat × String)} {n k : Nat} {v : String}
    (h : dlookup (translate_with_retry atts rem acc n).1 k = some v) :
    dlookup acc k = some v ∨ ∃ resp, some resp ∈ atts ∧ (k, v) ∈ resp := by
  induction atts generalizing rem acc n with
  | nil => exact Or.inl h
  | cons a rest ih =>
    by_cases hre : rem.isEmpty
    · rw [twr_cons_empty _ _ _ _ _ hre] at h
      exact Or.inl h
    · cases a with
      | none =>
        rw [twr_cons_none _ _ _ _ hre] at h
        rcases ih h with hd | ⟨resp, hm, hp⟩
        · exact Or.inl hd
        · exact Or.inr ⟨resp, List.mem_cons_of_mem _ hm, hp⟩
      | some resp =>
        rw [twr_cons_some _ _ _ _ _ hre] at h
        rcases ih h with hd | ⟨resp2, hm, hp⟩
        · rcases dlookup_applyResp_some hd with hd2 | hp
          · exact Or.inl hd2
          · exact Or.inr ⟨resp, List.mem_cons_self _ _, hp⟩
        · exact Or.inr ⟨resp2, List.mem_cons_of_mem _ hm, hp⟩

theorem twr_coverage (atts : List Attempt) (rem : List Item)
    (acc : List (Nat × String)) (n : Nat) (it : Item) (hit : it ∈ rem) :
    it ∈ (translate_with_retry atts rem acc n).2.1 ∨
      it.id ∈ (translate_with_retry atts rem acc n).1.map Prod.fst := by
  induction atts generalizing rem acc n with
  | nil => exact Or.inl hit
  | cons a rest ih =>
    by_cases hre : rem.isEmpty
    · rw [twr_cons_empty _ _ _ _ _ hre]; exact Or.inl hit
    · cases a with
      | none => rw [twr_cons_none _ _ _ _ hre]; exact ih _ _ _ hit
      | some resp =>
        rw [twr_cons_some _ _ _ _ _ hre]
        by_cases hid : it.id ∈ resp.map Prod.fst
        · exact Or.inr (twr_keys_mono _ _ _ _ _
            ((mem_keys_applyResp _ _ _).mpr (Or.inr hid)))
        · exact ih _ _ _ ((mem_removeReturned _ _ _).mpr ⟨hit, hid⟩)

theorem twr_keys_from {atts : List Attempt} {rem : List Item}
    {acc : List (Nat × String)} {n k : Nat}
    (h : k ∈ (translate_with_retry atts rem acc n).1.map Prod.fst) :
    k ∈ acc.map Prod.fst ∨ ∃ resp, some resp ∈ atts ∧ k ∈ resp.map Prod.fst := by
  induction atts generalizing rem acc n with
  | nil => exact Or.inl h
  | cons a rest ih =>
    by_cases hre : rem.isEmpty
    · rw [twr_cons_empty _ _ _ _ _ hre] at h
      exact Or.inl h
    · cases a with
      | none =>
        rw [twr_cons_none _ _ _ _ hre] at h
        rcases ih h with hd | ⟨resp, hm, hp⟩
        · exact Or.inl hd
        · exact Or.inr ⟨resp, List.mem_cons_of_mem _ hm, hp⟩
      | some resp =>
        rw [twr_cons_some _ _ _ _ _ hre] at h
        rcases ih h with hd | ⟨resp2, hm, hp⟩
        · rcases (mem_keys_applyResp _ _ _).mp hd with hd2 | hp
          · exact Or.inl hd2
          · exact Or.inr ⟨resp, List.mem_cons_self _ _, hp⟩
        · exact Or.inr ⟨resp2, List.mem_cons_of_mem _ hm, hp⟩

theorem twr_nodup_keys (atts : List Attempt) (rem : List Item)
    (acc : List (Nat × String)) (n : Nat) (h : (acc.map Prod.fst).Nodup) :
    ((translate_with_retry atts rem acc n).1.map Prod.fst).Nodup := by
  induction atts generalizing rem acc n with
  | nil => exact h
  | cons a rest ih =>
    by_cases hre : rem.isEmpty
    · rw [twr_cons_empty _ _ _ _ _ hre]; exact h
    · cases a with
      | none => rw [twr_cons_none _ _ _ _ hre]; exact ih _ _ _ h
      | some resp =>
        rw [twr_cons_some _ _ _ _ _ hre]
        exact ih _ _ _ (nodup_keys_applyResp _ _ h)

/-! ### Counting: the reconciliation invariant -/

theorem length_eq_card_keys {α β : Type} [DecidableEq α] (m : List (α × β))
    (h : (m.map Prod.fst).Nodup) : m.length = (m.map Prod.fst).toFinset.card := by
  rw [List.toFinset_card_of_nodup h, List.length_map]

theorem length_applyResp_add_removeReturned
    (acc : List (Nat × String)) (resp : Resp) (rem : List Item)
    (hsub : ∀ k ∈ resp.map Prod.fst, k ∈ rem.map Item.id)
    (hnr : (rem.map Item.id).Nodup)
    (hna : (acc.map Prod.fst).Nodup)
    (hdisj : ∀ k ∈ acc.map Prod.fst, k ∉ rem.map Item.id) :
    (applyResp acc resp).length + (removeReturned resp rem).length
      = acc.length + rem.length := by
  classical
  have hSR : (resp.map Prod.fst).toFinset ⊆ (rem.map Item.id).toFinset := by
    intro k hk
    exact List.mem_toFinset.mpr (hsub k (List.mem_toFinset.mp hk))
  have hAR : Disjoint (acc.map Prod.fst).toFinset (rem.map Item.id).toFinset := by
    rw [Finset.disjoint_left]
    intro k hk hk2
    exact hdisj k (List.mem_toFinset.mp hk) (List.mem_toFinset.mp hk2)
  have hAS : Disjoint (acc.map Prod.fst).toFinset (resp.map Prod.fst).toFinset :=
    Finset.disjoint_of_subset_right hSR hAR
  have happ : (applyResp acc resp).length =
      ((acc.map Prod.fst).toFinset ∪ (resp.map Prod.fst).toFinset).card := by
    rw [length_eq_card_keys _ (nodup_keys_applyResp _ _ hna), keys_applyResp_toFinset]
  have hrm : (removeReturned resp rem).length =
      ((rem.map Item.id).toFinset \ (resp.map Prod.fst).toFinset).card := by
    have hn2 : ((removeReturned resp rem).map Item.id).Nodup := by
      rw [ids_removeReturned]
      exact List.Nodup.filter _ hnr
    have : (removeReturned resp rem).length =
        ((removeReturned resp rem).map Item.id).toFinset.card := by
      rw [List.toFinset_card_of_nodup hn2, List.length_map]
    rw [this, ids_removeReturned, List.toFinset_filter]
    congr 1
    rw [Finset.sdiff_eq_filter]
    exact Finset.filter_congr (by intro x _; simp)
  rw [happ, hrm, Finset.card_union_of_disjoint hAS, Finset.card_sdiff hSR,
    length_eq_card_keys _ hna]
  have hk1 : (resp.map Prod.fst).toFinset.card ≤ (rem.map Item.id).toFinset.card :=
    Finset.card_le_card hSR
  have hk2 : rem.length = (rem.map Item.id).toFinset.card := by
    rw [List.toFinset_card_of_nodup hnr, List.length_map]
  omega

theorem twr_count (atts : List Attempt) (rem : List Item)
    (acc : List (Nat × String)) (n : Nat)
    (hrun : subsetRunB atts rem = true)
    (hnr : (rem.map Item.id).Nodup)
    (hna : (acc.map Prod.fst).Nodup)
    (hdisj : ∀ k ∈ acc.map Prod.fst, k ∉ rem.map Item.id) :
    (translate_with_retry atts rem acc n).1.length +
      (translate_with_retry atts rem acc n).2.1.length = acc.length + rem.length := by
  induction atts generalizing rem acc n with
  | nil => rfl
  | cons a rest ih =>
    by_cases hre : rem.isEmpty
    · rw [twr_cons_empty _ _ _ _ _ hre]
    · cases a with
      | none =>
        rw [twr_cons_none _ _ _ _ hre]
        have hrun2 : subsetRunB rest rem = true := by
          rw [subsetRunB.eq_def] at hrun
          simpa [hre] using hrun
        exact ih _ _ _ hrun2 hnr hna hdisj
      | some resp =>
        rw [twr_cons_some _ _ _ _ _ hre]
        have hrun0 := hrun
        rw [subsetRunB.eq_def] at hrun0
        simp only [hre, if_neg, Bool.and_eq_true, List.all_eq_true,
          decide_eq_true_eq, Bool.false_eq_true, if_false] at hrun0
        obtain ⟨hsub, hrun2⟩ := hrun0
        have hsub2 : ∀ k ∈ resp.map Prod.fst, k ∈ rem.map Item.id := hsub
        have hnr2 : ((removeReturned resp rem).map Item.id).Nodup := by
          rw [ids_removeReturned]
          exact List.Nodup.filter _ hnr
        have hna2 : ((applyResp acc resp).map Prod.fst).Nodup :=
          nodup_keys_applyResp _ _ hna
        have hdisj2 : ∀ k ∈ (applyResp acc resp).map Prod.fst,
            k ∉ (removeReturned resp rem).map Item.id := by
          intro k hk hk2
          rw [ids_removeReturned, List.mem_filter] at hk2
          rcases (mem_keys_applyResp _ _ _).mp hk with hk3 | hk3
          · exact hdisj k hk3 hk2.1
          · exact absurd hk3 (of_decide_eq_true hk2.2)
        have := ih _ _ (n + 1) hrun2 hnr2 hna2 hdisj2
        rw [this, length_applyResp_add_removeReturned _ _ _ hsub2 hnr hna hdisj]

/-! ### The token-budget batcher -/

/-- The cost of a batch: the sum of per-item costs. -/
def batchCost (cost : String → Nat) (b : List Item) : Nat :=
  (b.map (fun it => cost it.text)).sum

theorem chunkAux_budget (cost : String → Nat) (maxTokens : Nat) (items : List Item)
    (batch : List Item) (cur : Nat)
    (hcur : cur = batchCost cost batch) (hle : cur ≤ maxTokens) :
    ∀ b ∈ chunkAux cost maxTokens items batch cur,
      batchCost cost b ≤ maxTokens ∨ ∃ it, b = [it] ∧ maxTokens < cost it.text := by
  induction items generalizing batch cur with
  | nil =>
    intro b hb
    rw [chunkAux] at hb
    by_cases h : batch.isEmpty
    · rw [if_pos h] at hb
      exact absurd hb (List.not_mem_nil b)
    · rw [if_neg h, List.mem_singleton] at hb
      subst hb
      exact Or.inl (hcur ▸ hle)
  | cons it rest ih =>
    intro b hb
    rw [chunkAux] at hb
    by_cases h1 : maxTokens < cost it.text
    · rw [if_pos h1, List.mem_append, List.mem_cons] at hb
      rcases hb with hb | hb | hb
      · by_cases h : batch.isEmpty
        · rw [if_pos h] at hb
          exact absurd hb (List.not_mem_nil b)
        · rw [if_neg h, List.mem_singleton] at hb
          subst hb
          exact Or.inl (hcur ▸ hle)
      · exact Or.inr ⟨it, hb, h1⟩
      · exact ih [] 0 (by simp [batchCost]) (Nat.zero_le _) b hb
    · rw [if_neg h1] at hb
      by_cases h2 : maxTokens < cur + cost it.text
      · rw [if_pos h2, List.mem_cons] at hb
        rcases hb with hb | hb
        · subst hb
          exact Or.inl (hcur ▸ hle)
        · exact ih [it] (cost it.text) (by simp [batchCost]) (Nat.le_of_not_lt h1) b hb
      · rw [if_neg h2] at hb
        refine ih (batch ++ [it]) (cur + cost it.text) ?_ (Nat.le_of_not_lt h2) b hb
        simp [batchCost, hcur]

theorem chunkAux_flatten (cost : String → Nat) (maxTokens : Nat) (items : List Item)
    (batch : List Item) (cur : Nat) :
    (chunkAux cost maxTokens items batch cur).flatten = batch ++ items := by
  induction items generalizing batch cur with
  | nil =>
    rw [chunkAux]
    by_cases h : batch.isEmpty
    · rw [if_pos h, List.isEmpty_iff.mp h]
      rfl
    · rw [if_neg h]
      simp
  | cons it rest ih =>
    rw [chunkAux]
    by_cases h1 : maxTokens < cost it.text
    · rw [if_pos h1]
      by_cases h : batch.isEmpty
      · rw [if_pos h, List.isEmpty_iff.mp h]
        simp [ih]
      · rw [if_neg h]
        simp [ih]
    · rw [if_neg h1]
      by_cases h2 : maxTokens < cur + cost it.text
      · rw [if_pos h2]
        simp [ih]
      · rw [if_neg h2]
        simp [ih]

theorem chunk_flatten (items : List Item) (maxTokens : Nat) (cost : String → Nat) :
    (chunk_by_token_limit items maxTokens cost).flatten = items :=
  chunkAux_flatten cost maxTokens items [] 0

theorem chunk_mem_of_mem_batch {items : List Item} {maxTokens : Nat}
    {cost : String → Nat} {b : List Item} {it : Item}
    (hb : b ∈ chunk_by_token_limit items maxTokens cost) (hit : it ∈ b) : it ∈ items := by
  rw [← chunk_flatten items maxTokens cost]
  exact List.mem_flatten.mpr ⟨b, hb, hit⟩

/-! ### Claim C2: the batcher's budget invariant -/

/-- C2: for every input sequence, budget and cost function, every batch
produced by `chunk_by_token_limit` either has summed cost within the
budget or is a singleton whose single item's own cost exceeds the budget;
consequently every item whose cost exceeds the budget is emitted alone,
never merged with other items. -/
theorem esp2dsd_batcher_budget (cost : String → Nat) (maxTokens : Nat) (items : List Item) :
    ∀ b ∈ chunk_by_token_limit items maxTokens cost,
      (batchCost cost b ≤ maxTokens ∨ ∃ it, b = [it] ∧ maxTokens < cost it.text) ∧
        (∀ it ∈ b, maxTokens < cost it.text → b = [it]) := by
  intro b hb
  have h1 := chunkAux_budget cost maxTokens items [] 0 rfl (Nat.zero_le _) b hb
  refine ⟨h1, ?_⟩
  intro it hit hcost
  rcases h1 with h1 | ⟨it2, hb2, _⟩
  · exfalso
    have hle : cost it.text ≤ batchCost cost b :=
      List.single_le_sum (fun x _ => Nat.zero_le x) _ (List.mem_map_of_mem _ hit)
    omega
  · subst hb2
    rw [List.mem_singleton] at hit
    rw [hit]

/-- Witness for C2 at a concrete input: budget 5, costs = byte lengths,
the oversized item `"cccccc"` is alone and the batch `[aa, bbb]` fits. -/
theorem esp2dsd_batcher_budget_witness :
    (batchCost String.length [⟨0, "aa"⟩, ⟨1, "bbb"⟩] ≤ 5 ∨
        ∃ it, [Item.mk 0 "aa", Item.mk 1 "bbb"] = [it] ∧ 5 < String.length it.text) ∧
      (∀ it ∈ [Item.mk 0 "aa", Item.mk 1 "bbb"], 5 < String.length it.text →
        [Item.mk 0 "aa", Item.mk 1 "bbb"] = [it]) :=
  esp2dsd_batcher_budget String.length 5
    [⟨0, "aa"⟩, ⟨1, "bbb"⟩, ⟨2, "cccccc"⟩, ⟨3, "d"⟩]
    [⟨0, "aa"⟩, ⟨1, "bbb"⟩] (by decide)

/-! ### Claim C3: the reconciliation invariant -/

/-- C3: for every submitted batch with distinct ids and every sequence of
remote outcomes obeying the §6 interface contract (each structured
response returns a subset of the requested ids), the number of ids in the
result map plus the number of items still unresolved equals the number of
items submitted.  The attempt sequence is universally quantified, so the
invariant holds after every retry attempt: the state after attempt `k` of
a run is the final state of the run on the length-`k` truncation of the
attempt sequence. -/
theorem esp2dsd_retry_reconciliation_count (atts : List Attempt) (submitted : List Item)
    (hids : (submitted.map Item.id).Nodup) (hrun : subsetRunB atts submitted = true) :
    (translate_with_retry atts submitted [] 0).1.length +
      (translate_with_retry atts submitted [] 0).2.1.length = submitted.length := by
  have h := twr_count atts submitted [] 0 hrun hids (by simp) (by simp)
  simpa using h

/-- Witness for C3 at the spec's scenario: remote returns `{1: Bonjour}`
then `{2: Monde}`; 2 results + 0 unresolved = 2 submitted. -/
theorem esp2dsd_retry_reconciliation_count_witness :
    (translate_with_retry [some [(1, "Bonjour")], some [(2, "Monde")]]
        [⟨1, "Hello"⟩, ⟨2, "World"⟩] [] 0).1.length +
      (translate_with_retry [some [(1, "Bonjour")], some [(2, "Monde")]]
        [⟨1, "Hello"⟩, ⟨2, "World"⟩] [] 0).2.1.length = 2 :=
  esp2dsd_retry_reconciliation_count _ _ (by decide) (by decide)

/-! ### Claim C9: first-wins load-order resolution -/

theorem dlookup_append_single_ne {α β : Type} [DecidableEq α]
    (pm : List (α × β)) (e : α × β) (k : α) (h : e.1 ≠ k) :
    dlookup (pm ++ [e]) k = dlookup pm k := by
  induction pm with
  | nil => simp [dlookup_cons, h]
  | cons p pm ih =>
    rw [List.cons_append, dlookup_cons, dlookup_cons, ih]

theorem processModDir_preserve (listing : List String) (modName : String)
    (pm : List (String × String)) (k : String) (v : String)
    (h : dlookup pm k = some v) :
    dlookup (processModDir listing modName pm) k = some v := by
  induction listing generalizing pm with
  | nil => exact h
  | cons f rest ih =>
    rw [processModDir, List.foldl_cons]
    by_cases h1 : pyToLower (pySuffix f) ∈ PLUGIN_EXTENSIONS
    · rw [if_pos h1]
      by_cases h2 : (dlookup pm f).isSome
      · rw [if_pos h2]
        exact ih pm h
      · rw [if_neg h2]
        exact ih _ (dlookup_append_of_some _ h)
    · rw [if_neg h1]
      exact ih pm h

theorem processModDir_inserts (listing : List String) (modName fname : String)
    (pm : List (String × String))
    (hnone : dlookup pm fname = none)
    (hmem : fname ∈ listing)
    (hext : pyToLower (pySuffix fname) ∈ PLUGIN_EXTENSIONS) :
    dlookup (processModDir listing modName pm) fname =
      some (pluginPath modName fname) := by
  induction listing generalizing pm with
  | nil => cases hmem
  | cons f rest ih =>
    rw [processModDir, List.foldl_cons]
    by_cases hf : f = fname
    · subst hf
      rw [if_pos hext, if_neg (by simp [hnone])]
      have hlook : dlookup (pm ++ [(f, pluginPath modName f)]) f =
          some (pluginPath modName f) := by
        rw [dlookup_append_of_none _ hnone, dlookup_cons]
        simp
      exact processModDir_preserve rest modName _ _ _ hlook
    · have hmem2 : fname ∈ rest := by
        rcases List.mem_cons.mp hmem with h | h
        · exact absurd h.symm hf
        · exact h
      by_cases h1 : pyToLower (pySuffix f) ∈ PLUGIN_EXTENSIONS
      · rw [if_pos h1]
        by_cases h2 : (dlookup pm f).isSome
        · rw [if_pos h2]
          exact ih pm hnone hmem2
        · rw [if_neg h2]
          exact ih _ (by rw [dlookup_append_single_ne _ _ _ hf, hnone]) hmem2
      · rw [if_neg h1]
        exact ih pm hnone hmem2

theorem processModDir_skips (listing : List String) (modName fname : String)
    (pm : List (String × String))
    (hnone : dlookup pm fname = none)
    (hno : ¬ (fname ∈ listing ∧ pyToLower (pySuffix fname) ∈ PLUGIN_EXTENSIONS)) :
    dlookup (processModDir listing modName pm) fname = none := by
  induction listing generalizing pm with
  | nil => exact hnone
  | cons f rest ih =>
    have hno2 : ¬ (fname ∈ rest ∧ pyToLower (pySuffix fname) ∈ PLUGIN_EXTENSIONS) := by
      rintro ⟨hm, he⟩
      exact hno ⟨List.mem_cons_of_mem _ hm, he⟩
    rw [processModDir, List.foldl_cons]
    by_cases hf : f = fname
    · subst hf
      have hext : ¬ pyToLower (pySuffix f) ∈ PLUGIN_EXTENSIONS := by
        intro he
        exact hno ⟨List.mem_cons_self _ _, he⟩
      rw [if_neg hext]
      exact ih pm hnone hno2
    · by_cases h1 : pyToLower (pySuffix f) ∈ PLUGIN_EXTENSIONS
      · rw [if_pos h1]
        by_cases h2 : (dlookup pm f).isSome
        · rw [if_pos h2]
          exact ih pm hnone hno2
        · rw [if_neg h2]
          exact ih _ (by rw [dlookup_append_single_ne _ _ _ hf, hnone]) hno2
      · rw [if_neg h1]
        exact ih pm hnone hno2

/-- The mod-directory fold of the resolver, for reasoning with a general
accumulator. -/
theorem resolver_fold_preserve (fs : String → Option (List String))
    (mods : List String) (pm : List (String × String)) (k v : String)
    (h : dlookup pm k = some v) :
    dlookup (mods.foldl
      (fun pm modName =>
        match fs modName with
        | none => pm
        | some listing => processModDir listing modName pm) pm) k = some v := by
  induction mods generalizing pm with
  | nil => exact h
  | cons m mods ih =>
    rw [List.foldl_cons]
    cases hm : fs m with
    | none => exact ih pm h
    | some listing => exact ih _ (processModDir_preserve _ _ _ _ _ h)

theorem resolver_fold_first (fs : String → Option (List String))
    (fname : String) (pre : List String) (m : String) (post : List String)
    (pm : List (String × String))
    (hnone : dlookup pm fname = none)
    (hpre : ∀ m2 ∈ pre, modHasPlugin fs m2 fname = false)
    (hm : modHasPlugin fs m fname = true) :
    dlookup ((pre ++ m :: post).foldl
      (fun pm modName =>
        match fs modName with
        | none => pm
        | some listing => processModDir listing modName pm) pm) fname =
      some (pluginPath m fname) := by
  induction pre generalizing pm with
  | nil =>
    rw [List.nil_append, List.foldl_cons]
    cases hfs : fs m with
    | none => rw [modHasPlugin, hfs] at hm; cases hm
    | some listing =>
      rw [modHasPlugin, hfs, Bool.and_eq_true, decide_eq_true_eq, decide_eq_true_eq] at hm
      exact resolver_fold_preserve fs post _ _ _
        (processModDir_inserts listing m fname pm hnone hm.1 hm.2)
  | cons m2 pre ih =>
    rw [List.cons_append, List.foldl_cons]
    have hm2 := hpre m2 (List.mem_cons_self _ _)
    have hpre2 : ∀ m3 ∈ pre, modHasPlugin fs m3 fname = false :=
      fun m3 h3 => hpre m3 (List.mem_cons_of_mem _ h3)
    cases hfs : fs m2 with
    | none => exact ih pm hnone hpre2
    | some listing =>
      refine ih _ ?_ hpre2
      rw [modHasPlugin, hfs] at hm2
      refine processModDir_skips listing m2 fname pm hnone ?_
      rintro ⟨ha, hb⟩
      have hm3 : (decide (fname ∈ listing) &&
          decide (pyToLower (pySuffix fname) ∈ PLUGIN_EXTENSIONS)) = false := hm2
      simp [ha, hb] at hm3

/-- C9: for every filesystem and modlist, if the enabled-mod list resolves
to `pre ++ m :: post` where no higher-priority mod in `pre` contains
plugin file `fname` and mod `m` does contain it, then the resolver maps
`fname` to `m`'s path — the earliest (highest-priority) occurrence wins
and later occurrences never overwrite it. -/
theorem esp2dsd_load_order_first_wins (fs : String → Option (List String))
    (lines : List String) (fname : String) (pre : List String) (m : String)
    (post : List String)
    (hdecomp : parseModlist lines = pre ++ m :: post)
    (hpre : ∀ m2 ∈ pre, modHasPlugin fs m2 fname = false)
    (hm : modHasPlugin fs m fname = true) :
    dlookup (find_mod_plugins_from_profile fs lines) fname =
      some (pluginPath m fname) := by
  rw [find_mod_plugins_from_profile, hdecomp]
  exact resolver_fold_first fs fname pre m post [] rfl hpre hm

/-- Witness for C9 at the spec's scenario: mods `[A(high), B(low)]` both
containing `plugin.esp` → the resolver returns A's path. -/
theorem esp2dsd_load_order_first_wins_witness :
    dlookup (find_mod_plugins_from_profile
      (fun md => if md = "A" then some ["plugin.esp"]
        else if md = "B" then some ["plugin.esp"] else none)
      ["+A", "+B"]) "plugin.esp" = some (pluginPath "A" "plugin.esp") :=
  esp2dsd_load_order_first_wins
    (fun md => if md = "A" then some ["plugin.esp"]
      else if md = "B" then some ["plugin.esp"] else none)
    ["+A", "+B"] "plugin.esp" [] "A" ["B"] (by decide)
    (by intro m2 h; cases h) (by decide)

/-! ### Claim C7: the timestamp snapshot at run end -/

/-- C7 counterexample: the claim "at the end of every run the snapshot
file is overwritten with an entry for every plugin in the full resolved
list" fails on the code.  In a run whose only resolved plugin `a.esp` is
unchanged (same mtime 5 as the snapshot), `main` returns at
`"No plugins to process after exclusion."` before
`save_current_timestamps`, so the snapshot is not overwritten at all. -/
theorem esp2dsd_snapshot_counterexample :
    ¬ (∀ p ∈ [Plugin.mk "a.esp" (some 5)], ∀ m, p.mtime = some m →
        ∃ snap, (mainRun [("a.esp", 5)] (fun _ => false)
            [⟨"a.esp", some 5⟩]).snapshot = some snap ∧ (p.name, m) ∈ snap) := by
  intro h
  obtain ⟨snap, hsnap, _⟩ := h ⟨"a.esp", some 5⟩ (by decide) 5 rfl
  have hnone : (mainRun [("a.esp", 5)] (fun _ => false)
      [⟨"a.esp", some 5⟩]).snapshot = none := by decide
  rw [hnone] at hsnap
  cases hsnap

/-- C7 amended: at the end of every run that reaches the processing phase
(at least one plugin survives change detection and the exclusion filter),
the snapshot is overwritten wholesale with an entry (filename, current
mtime) for every plugin of the full resolved list whose mtime is readable
— including plugins skipped as unchanged, excluded by the denylist, or
whose pipeline failed — not just the plugins processed in this run. -/
theorem esp2dsd_snapshot_overwrite_amended (prev : List (String × Int))
    (excl : String → Bool) (pluginList : List Plugin)
    (hrun : ¬ (filtered_plugins excl (updated_plugins prev pluginList)).isEmpty = true) :
    (mainRun prev excl pluginList).snapshot = some (save_current_timestamps pluginList) ∧
      ∀ p ∈ pluginList, ∀ m, p.mtime = some m →
        (p.name, m) ∈ save_current_timestamps pluginList := by
  constructor
  · simp only [mainRun]
    rw [if_neg hrun]
  · intro p hp m hm
    exact List.mem_filterMap.mpr ⟨p, hp, by rw [hm]; rfl⟩

/-- Witness for C7's amended claim: `a.esp` is new (processed), `b.esp`
is denylisted and `c.esp` has an unreadable mtime; the snapshot still
covers `a.esp` and the skipped `b.esp`. -/
theorem esp2dsd_snapshot_overwrite_amended_witness :
    (mainRun [] (fun n => decide (n = "b.esp"))
        [⟨"a.esp", some 5⟩, ⟨"b.esp", some 7⟩, ⟨"c.esp", none⟩]).snapshot =
      some (save_current_timestamps
        [⟨"a.esp", some 5⟩, ⟨"b.esp", some 7⟩, ⟨"c.esp", none⟩]) ∧
      ∀ p ∈ [Plugin.mk "a.esp" (some 5), ⟨"b.esp", some 7⟩, ⟨"c.esp", none⟩],
        ∀ m, p.mtime = some m →
          (p.name, m) ∈ save_current_timestamps
            [⟨"a.esp", some 5⟩, ⟨"b.esp", some 7⟩, ⟨"c.esp", none⟩] :=
  esp2dsd_snapshot_overwrite_amended [] (fun n => decide (n = "b.esp"))
    [⟨"a.esp", some 5⟩, ⟨"b.esp", some 7⟩, ⟨"c.esp", none⟩] (by decide)

/-! ### Claim C8: prompt resolution totality -/

theorem bpm_keys_mono (bt : String) (items : List (String × String))
    (acc : List (String × String)) (k : String) (hk : k ∈ acc.map Prod.fst) :
    k ∈ (items.foldl
      (fun pm kv =>
        if pyStartsWith kv.1 "prompt_" ∧ kv.1 ≠ "prompt_template" then
          dinsert pm (replaceUnderscores (kv.1.drop 7))
            (pyLStrip bt ++ pyLStrip kv.2 ++ inputSuffix)
        else pm)
      acc).map Prod.fst := by
  induction items generalizing acc with
  | nil => exact hk
  | cons p items ih =>
    rw [List.foldl_cons]
    by_cases h : pyStartsWith p.1 "prompt_" ∧ p.1 ≠ "prompt_template"
    · rw [if_pos h]
      exact ih _ ((mem_keys_dinsert _ _ _ _).mpr (Or.inl hk))
    · rw [if_neg h]
      exact ih _ hk

theorem bpm_adds (bt : String) (items : List (String × String))
    (acc : List (String × String)) (kv : String × String) (hkv : kv ∈ items)
    (h1 : pyStartsWith kv.1 "prompt_" = true) (h2 : kv.1 ≠ "prompt_template") :
    replaceUnderscores (kv.1.drop 7) ∈ (items.foldl
      (fun pm kv =>
        if pyStartsWith kv.1 "prompt_" ∧ kv.1 ≠ "prompt_template" then
          dinsert pm (replaceUnderscores (kv.1.drop 7))
            (pyLStrip bt ++ pyLStrip kv.2 ++ inputSuffix)
        else pm)
      acc).map Prod.fst := by
  induction items generalizing acc with
  | nil => cases hkv
  | cons p items ih =>
    rw [List.foldl_cons]
    rcases List.mem_cons.mp hkv with hh | hh
    · subst hh
      rw [if_pos ⟨h1, h2⟩]
      exact bpm_keys_mono _ _ _ _
        ((mem_keys_dinsert _ _ _ _).mpr (Or.inr rfl))
    · by_cases h : pyStartsWith p.1 "prompt_" ∧ p.1 ≠ "prompt_template"
      · rw [if_pos h]
        exact ih _ hh
      · rw [if_neg h]
        exact ih _ hh

/-- C8: for every configuration that defines the generic fallback entry
`PROMPT_OTHERS` (part of the recognized configuration surface, spec §6)
and for every record-type string, prompt resolution over the built prompt
map returns a usable template and never fails; when the record type has an
exact entry in the map, that entry is returned, otherwise the designated
`"others"` fallback is returned. -/
theorem esp2dsd_prompt_totality (cfg : List (String × String))
    (pm : List (String × String)) (rt : String)
    (hbuild : build_prompt_map cfg = some pm)
    (hothers : (dlookup cfg "prompt_others").isSome) :
    ∃ t, resolvePrompt pm rt = some t ∧
      (∀ u, dlookup pm rt = some u → t = u) ∧
      (dlookup pm rt = none → dlookup pm "others" = some t) := by
  cases hbt : dlookup cfg "prompt_template" with
  | none => rw [build_prompt_map, hbt] at hbuild; cases hbuild
  | some bt =>
    rw [build_prompt_map, hbt] at hbuild
    obtain ⟨v, hv⟩ := Option.isSome_iff_exists.mp hothers
    have hmem : ("prompt_others", v) ∈ cfg := dlookup_mem hv
    have hkey : replaceUnderscores (("prompt_others" : String).drop 7) ∈
        pm.map Prod.fst := by
      cases hbuild
      exact bpm_adds bt cfg [] ("prompt_others", v) hmem
        (show pyStartsWith "prompt_others" "prompt_" = true by decide)
        (show ("prompt_others" : String) ≠ "prompt_template" by decide)
    have hkey2 : ("others" : String) ∈ pm.map Prod.fst := by
      have : replaceUnderscores (("prompt_others" : String).drop 7) = "others" := by
        decide
      rwa [this] at hkey
    obtain ⟨d, hd⟩ := Option.isSome_iff_exists.mp
      ((dlookup_isSome_iff pm "others").mpr hkey2)
    refine ⟨(dlookup pm rt).getD d, ?_, ?_, ?_⟩
    · rw [resolvePrompt, hd]
    · intro u hu
      rw [hu]
      rfl
    · intro hn
      rw [hn, Option.getD_none]
      exact hd

/-- Witness for C8 at a concrete configuration: an unknown record type
resolves to the generic `others` template. -/
theorem esp2dsd_prompt_totality_witness :
    ∃ t, resolvePrompt
        [("dial full", "B D【入力テキスト】:{text}"), ("others", "B O【入力テキスト】:{text}")]
        "WEAP FULL" = some t ∧
      (∀ u, dlookup
        [("dial full", "B D【入力テキスト】:{text}"), ("others", "B O【入力テキスト】:{text}")]
        "WEAP FULL" = some u → t = u) ∧
      (dlookup
        [("dial full", "B D【入力テキスト】:{text}"), ("others", "B O【入力テキスト】:{text}")]
        "WEAP FULL" = none →
        dlookup
          [("dial full", "B D【入力テキスト】:{text}"), ("others", "B O【入力テキスト】:{text}")]
          "others" = some t) :=
  esp2dsd_prompt_totality
    [("prompt_template", "B "), ("prompt_dial_full", "D"), ("prompt_others", "O")]
    [("dial full", "B D【入力テキスト】:{text}"), ("others", "B O【入力テキスト】:{text}")]
    "WEAP FULL" (by decide) (by decide)

/-! ### Lemmas about the cache-check phase of `call_llm_api_batch` -/

theorem nodup_fst_inj {α β : Type} {l : List (α × β)}
    (h : (l.map Prod.fst).Nodup) {k : α} {a b : β}
    (ha : (k, a) ∈ l) (hb : (k, b) ∈ l) : a = b := by
  induction l with
  | nil => cases ha
  | cons p l ih =>
    rw [List.map_cons, List.nodup_cons] at h
    rcases List.mem_cons.mp ha with ha1 | ha1 <;>
      rcases List.mem_cons.mp hb with hb1 | hb1
    · rw [← ha1] at hb1
      cases hb1
      rfl
    · exfalso
      exact h.1 (ha1 ▸ (List.mem_map_of_mem Prod.fst hb1 : (k, b).1 ∈ l.map Prod.fst))
    · exfalso
      exact h.1 (hb1 ▸ (List.mem_map_of_mem Prod.fst ha1 : (k, a).1 ∈ l.map Prod.fst))
    · exact ih h.2 ha1 hb1

theorem dinsert_eq_append {α β : Type} [DecidableEq α]
    (m : List (α × β)) (k : α) (v : β) (h : k ∉ m.map Prod.fst) :
    dinsert m k v = m ++ [(k, v)] := by
  induction m with
  | nil => rfl
  | cons p m ih =>
    have h1 : p.1 ≠ k := by
      intro hh
      exact h (by simp [hh])
    have h2 : k ∉ m.map Prod.fst := by
      intro hh
      exact h (by simp [hh])
    rw [dinsert, if_neg h1, ih h2, List.cons_append]

theorem origIdText_fold_eq (u : List (Nat × String)) (acc : List (Nat × String))
    (hn : (u.map Prod.fst).Nodup)
    (hd : ∀ q ∈ u, q.1 ∉ acc.map Prod.fst) :
    u.foldl (fun m p => dinsert m p.1 p.2) acc = acc ++ u := by
  induction u generalizing acc with
  | nil => simp
  | cons p u ih =>
    rw [List.map_cons, List.nodup_cons] at hn
    rw [List.foldl_cons, dinsert_eq_append _ _ _ (hd p (List.mem_cons_self _ _)),
      ih _ hn.2, List.append_assoc, List.singleton_append]
    intro q hq
    rw [List.map_append, List.mem_append]
    rintro (hh | hh)
    · exact hd q (List.mem_cons_of_mem _ hq) hh
    · simp only [List.map_cons, List.map_nil, List.mem_singleton] at hh
      exact hn.1 (hh ▸ List.mem_map_of_mem Prod.fst hq)

/-- With distinct uncached indices (always the case: they are `enumerate`
positions), the dict `original_id_text` is the uncached list itself. -/
theorem origIdText_eq (u : List (Nat × String)) (hn : (u.map Prod.fst).Nodup) :
    origIdTextOf u = u := by
  rw [origIdTextOf, origIdText_fold_eq u [] hn (by simp), List.nil_append]

theorem mem_nonEmptyOf (safe : List String) (p : Nat × String) :
    p ∈ nonEmptyOf safe ↔ safe[p.1]? = some p.2 ∧ pyStrip p.2 ≠ "" := by
  rw [nonEmptyOf, List.mem_filter, List.mem_enum_iff_getElem?]
  simp

theorem nonEmptyOf_nodup_fst (safe : List String) :
    ((nonEmptyOf safe).map Prod.fst).Nodup := by
  have h1 : ((nonEmptyOf safe).map Prod.fst).Sublist (safe.enum.map Prod.fst) :=
    List.Sublist.map Prod.fst (List.filter_sublist _)
  rw [List.enum_map_fst] at h1
  exact h1.nodup (List.nodup_range _)

theorem cacheScan_uncached_general (c0 : Cache) (rt : String)
    (ne : List (Nat × String)) (st : List (Nat × String) × List (Nat × String) × Nat) :
    (ne.foldl (fun st p =>
      match cacheGet c0 rt p.2 with
      | some c => (dinsert st.1 p.1 c, st.2.1, st.2.2 + 1)
      | none => (st.1, st.2.1 ++ [p], st.2.2 + 1)) st).2.1 =
      st.2.1 ++ ne.filter (fun p => (cacheGet c0 rt p.2).isNone) := by
  induction ne generalizing st with
  | nil => simp
  | cons p rest ih =>
    rw [List.foldl_cons]
    cases hc : cacheGet c0 rt p.2 with
    | some c =>
      rw [ih]
      simp [List.filter_cons, hc]
    | none =>
      rw [ih]
      simp [List.filter_cons, hc]

theorem cacheScan_uncached (c0 : Cache) (rt : String) (ne : List (Nat × String)) :
    (cacheScan c0 rt ne).2.1 = ne.filter (fun p => (cacheGet c0 rt p.2).isNone) := by
  rw [cacheScan, cacheScan_uncached_general]
  rfl

theorem cacheScan_reads_general (c0 : Cache) (rt : String)
    (ne : List (Nat × String)) (st : List (Nat × String) × List (Nat × String) × Nat) :
    (ne.foldl (fun st p =>
      match cacheGet c0 rt p.2 with
      | some c => (dinsert st.1 p.1 c, st.2.1, st.2.2 + 1)
      | none => (st.1, st.2.1 ++ [p], st.2.2 + 1)) st).2.2 = st.2.2 + ne.length := by
  induction ne generalizing st with
  | nil => simp
  | cons p rest ih =>
    rw [List.foldl_cons]
    cases hc : cacheGet c0 rt p.2 with
    | some c =>
      rw [ih]
      simp
      omega
    | none =>
      rw [ih]
      simp
      omega

theorem cacheScan_reads (c0 : Cache) (rt : String) (ne : List (Nat × String)) :
    (cacheScan c0 rt ne).2.2 = ne.length := by
  rw [cacheScan, cacheScan_reads_general]
  simp

theorem cacheScan_tm_some_general (c0 : Cache) (rt : String)
    (ne : List (Nat × String)) (st : List (Nat × String) × List (Nat × String) × Nat)
    (k : Nat) (v : String)
    (h : dlookup (ne.foldl (fun st p =>
      match cacheGet c0 rt p.2 with
      | some c => (dinsert st.1 p.1 c, st.2.1, st.2.2 + 1)
      | none => (st.1, st.2.1 ++ [p], st.2.2 + 1)) st).1 k = some v) :
    dlookup st.1 k = some v ∨ ∃ t, (k, t) ∈ ne ∧ cacheGet c0 rt t = some v := by
  induction ne generalizing st with
  | nil => exact Or.inl h
  | cons p rest ih =>
    rw [List.foldl_cons] at h
    cases hc : cacheGet c0 rt p.2 with
    | some c =>
      rw [hc] at h
      rcases ih _ h with hd | ⟨t, hm, hcg⟩
      · by_cases hk : k = p.1
        · subst hk
          rw [dlookup_dinsert_self] at hd
          cases hd
          exact Or.inr ⟨p.2, by cases p; exact List.mem_cons_self _ _, hc⟩
        · rw [dlookup_dinsert_ne _ _ _ _ hk] at hd
          exact Or.inl hd
      · exact Or.inr ⟨t, List.mem_cons_of_mem _ hm, hcg⟩
    | none =>
      rw [hc] at h
      rcases ih _ h with hd | ⟨t, hm, hcg⟩
      · exact Or.inl hd
      · exact Or.inr ⟨t, List.mem_cons_of_mem _ hm, hcg⟩

theorem cacheScan_untouched_general (c0 : Cache) (rt : String)
    (ne : List (Nat × String)) (st : List (Nat × String) × List (Nat × String) × Nat)
    (k : Nat) (h : k ∉ ne.map Prod.fst) :
    dlookup (ne.foldl (fun st p =>
      match cacheGet c0 rt p.2 with
      | some c => (dinsert st.1 p.1 c, st.2.1, st.2.2 + 1)
      | none => (st.1, st.2.1 ++ [p], st.2.2 + 1)) st).1 k = dlookup st.1 k := by
  induction ne generalizing st with
  | nil => rfl
  | cons p rest ih =>
    have hk : k ≠ p.1 := by
      intro hh
      exact h (by simp [hh])
    have h2 : k ∉ rest.map Prod.fst := by
      intro hh
      exact h (by simp [hh])
    rw [List.foldl_cons]
    cases hc : cacheGet c0 rt p.2 with
    | some c => rw [ih _ h2, dlookup_dinsert_ne _ _ _ _ hk]
    | none => rw [ih _ h2]

theorem cacheScan_hit_general (c0 : Cache) (rt : String)
    (ne : List (Nat × String)) (st : List (Nat × String) × List (Nat × String) × Nat)
    (k : Nat) (t c : String)
    (hn : (ne.map Prod.fst).Nodup)
    (hd : ∀ q ∈ ne, q.1 ∉ st.1.map Prod.fst)
    (hm : (k, t) ∈ ne) (hc : cacheGet c0 rt t = some c) :
    dlookup (ne.foldl (fun st p =>
      match cacheGet c0 rt p.2 with
      | some c => (dinsert st.1 p.1 c, st.2.1, st.2.2 + 1)
      | none => (st.1, st.2.1 ++ [p], st.2.2 + 1)) st).1 k = some c := by
  induction ne generalizing st with
  | nil => cases hm
  | cons p rest ih =>
    rw [List.map_cons, List.nodup_cons] at hn
    rw [List.foldl_cons]
    rcases List.mem_cons.mp hm with hm1 | hm1
    · rw [← hm1]
      rw [← hm1] at hn
      rw [show ((k, t) : Nat × String).2 = t from rfl, hc]
      rw [cacheScan_untouched_general _ _ _ _ _ hn.1]
      exact dlookup_dinsert_self _ _ _
    · have hkp : k ≠ p.1 := by
        intro hh
        exact hn.1 (hh ▸ List.mem_map_of_mem Prod.fst hm1)
      cases hcp : cacheGet c0 rt p.2 with
      | some cp =>
        refine ih _ hn.2 ?_ hm1
        intro q hq
        rw [mem_keys_dinsert]
        rintro (hh | hh)
        · exact hd q (List.mem_cons_of_mem _ hq) hh
        · exact hn.1 (hh ▸ List.mem_map_of_mem Prod.fst hq)
      | none =>
        refine ih _ hn.2 ?_ hm1
        intro q hq
        exact hd q (List.mem_cons_of_mem _ hq)

theorem cacheScan_len_general (c0 : Cache) (rt : String)
    (ne : List (Nat × String)) (st : List (Nat × String) × List (Nat × String) × Nat)
    (hn : (ne.map Prod.fst).Nodup)
    (hhit : ∀ q ∈ ne, (cacheGet c0 rt q.2).isSome)
    (hd : ∀ q ∈ ne, q.1 ∉ st.1.map Prod.fst) :
    (ne.foldl (fun st p =>
      match cacheGet c0 rt p.2 with
      | some c => (dinsert st.1 p.1 c, st.2.1, st.2.2 + 1)
      | none => (st.1, st.2.1 ++ [p], st.2.2 + 1)) st).1.length =
      st.1.length + ne.length := by
  induction ne generalizing st with
  | nil => simp
  | cons p rest ih =>
    rw [List.map_cons, List.nodup_cons] at hn
    rw [List.foldl_cons]
    cases hc : cacheGet c0 rt p.2 with
    | some c =>
      have hlen : (dinsert st.1 p.1 c).length = st.1.length + 1 := by
        rw [length_dinsert, if_neg (hd p (List.mem_cons_self _ _))]
      rw [ih _ hn.2 (fun q hq => hhit q (List.mem_cons_of_mem _ hq)) ?_, hlen]
      · simp
        omega
      · intro q hq
        rw [mem_keys_dinsert]
        rintro (hh | hh)
        · exact hd q (List.mem_cons_of_mem _ hq) hh
        · exact hn.1 (hh ▸ List.mem_map_of_mem Prod.fst hq)
    | none =>
      exfalso
      have := hhit p (List.mem_cons_self _ _)
      rw [hc] at this
      cases this

/-! ### Lemmas about the order-restoration phase -/

theorem restoreOutput_length (safe : List String) (tm : List (Nat × String)) :
    (restoreOutput safe tm).length = safe.length := by
  rw [restoreOutput, List.length_map, List.enum_length]

theorem restoreOutput_getElem (safe : List String) (tm : List (Nat × String))
    (i : Nat) (s : String) (h : safe[i]? = some s) :
    (restoreOutput safe tm)[i]? =
      some (if pyStrip s = "" then "" else (dlookup tm i).getD s) := by
  rw [restoreOutput, List.getElem?_map, List.getElem?_enum, h]
  rfl

theorem restoreCacheHit_length (safe : List String) (tm : List (Nat × String)) :
    (restoreCacheHit safe tm).length = safe.length := by
  rw [restoreCacheHit, List.length_map, List.enum_length]

theorem restoreCacheHit_getElem (safe : List String) (tm : List (Nat × String))
    (i : Nat) (s : String) (h : safe[i]? = some s) :
    (restoreCacheHit safe tm)[i]? =
      some (if pyStrip s = "" then "" else (dlookup tm i).getD "") := by
  rw [restoreCacheHit, List.getElem?_map, List.getElem?_enum, h]
  rfl

/-! ### Lemmas about the result/failure store loops -/

@[simp] theorem storeResults_nil (rt : String) (o : List (Nat × String))
    (st : List (Nat × String) × Cache) : storeResults rt o st [] = some st := rfl

theorem storeResults_cons (rt : String) (o : List (Nat × String))
    (st : List (Nat × String) × Cache) (p : Nat × String) (rm : Resp) :
    storeResults rt o st (p :: rm) =
      match dlookup o p.1 with
      | none => none
      | some orig =>
          storeResults rt o (dinsert st.1 p.1 p.2, cacheSet st.2 rt orig p.2) rm := by
  cases h : dlookup o p.1 with
  | none => simp [storeResults, List.foldlM, h]
  | some orig => simp [storeResults, List.foldlM, h]

theorem storeResults_ok (rt : String) (o : List (Nat × String))
    (st : List (Nat × String) × Cache) (rm : Resp)
    (h : ∀ p ∈ rm, p.1 ∈ o.map Prod.fst) :
    ∃ tc, storeResults rt o st rm = some tc := by
  induction rm generalizing st with
  | nil => exact ⟨st, rfl⟩
  | cons p rm ih =>
    rw [storeResults_cons]
    obtain ⟨orig, horig⟩ := Option.isSome_iff_exists.mp
      ((dlookup_isSome_iff o p.1).mpr (h p (List.mem_cons_self _ _)))
    rw [horig]
    exact ih _ (fun q hq => h q (List.mem_cons_of_mem _ hq))

theorem storeResults_tm_untouched (rt : String) (o : List (Nat × String))
    (st : List (Nat × String) × Cache) (rm : Resp)
    (tc : List (Nat × String) × Cache) (k : Nat)
    (heq : storeResults rt o st rm = some tc) (hk : k ∉ rm.map Prod.fst) :
    dlookup tc.1 k = dlookup st.1 k := by
  induction rm generalizing st with
  | nil =>
    cases heq
    rfl
  | cons p rm ih =>
    rw [storeResults_cons] at heq
    cases horig : dlookup o p.1 with
    | none => rw [horig] at heq; cases heq
    | some orig =>
      rw [horig] at heq
      have hkp : k ≠ p.1 := by
        intro hh
        exact hk (by simp [hh])
      rw [ih _ heq (by intro hh; exact hk (by simp [hh])),
        dlookup_dinsert_ne _ _ _ _ hkp]

theorem storeResults_tm_prov (rt : String) (o : List (Nat × String))
    (st : List (Nat × String) × Cache) (rm : Resp)
    (tc : List (Nat × String) × Cache) (k : Nat) (v : String)
    (heq : storeResults rt o st rm = some tc) (h : dlookup tc.1 k = some v) :
    dlookup st.1 k = some v ∨ (k, v) ∈ rm := by
  induction rm generalizing st with
  | nil =>
    cases heq
    exact Or.inl h
  | cons p rm ih =>
    rw [storeResults_cons] at heq
    cases horig : dlookup o p.1 with
    | none => rw [horig] at heq; cases heq
    | some orig =>
      rw [horig] at heq
      rcases ih _ heq with hd | hm
      · by_cases hkp : k = p.1
        · subst hkp
          rw [dlookup_dinsert_self] at hd
          cases hd
          exact Or.inr (by cases p; exact List.mem_cons_self _ _)
        · rw [dlookup_dinsert_ne _ _ _ _ hkp] at hd
          exact Or.inl hd
      · exact Or.inr (List.mem_cons_of_mem _ hm)

theorem storeResults_tm_mem (rt : String) (o : List (Nat × String))
    (st : List (Nat × String) × Cache) (rm : Resp)
    (tc : List (Nat × String) × Cache) (k : Nat)
    (heq : storeResults rt o st rm = some tc)
    (h : k ∈ st.1.map Prod.fst ∨ k ∈ rm.map Prod.fst) :
    k ∈ tc.1.map Prod.fst := by
  induction rm generalizing st with
  | nil =>
    cases heq
    rcases h with h | h
    · exact h
    · cases h
  | cons p rm ih =>
    rw [storeResults_cons] at heq
    cases horig : dlookup o p.1 with
    | none => rw [horig] at heq; cases heq
    | some orig =>
      rw [horig] at heq
      refine ih _ heq ?_
      rcases h with h | h
      · exact Or.inl ((mem_keys_dinsert _ _ _ _).mpr (Or.inl h))
      · rcases (by simpa using h : k = p.1 ∨ k ∈ rm.map Prod.fst) with h | h
        · exact Or.inl ((mem_keys_dinsert _ _ _ _).mpr (Or.inr h))
        · exact Or.inr h

theorem storeResults_cache_prov (rt : String) (o : List (Nat × String))
    (st : List (Nat × String) × Cache) (rm : Resp)
    (tc : List (Nat × String) × Cache) (key : String × String) (v : String)
    (heq : storeResults rt o st rm = some tc) (h : dlookup tc.2 key = some v) :
    dlookup st.2 key = some v ∨
      ∃ id orig, (id, v) ∈ rm ∧ dlookup o id = some orig ∧ key = (rt, orig) := by
  induction rm generalizing st with
  | nil =>
    cases heq
    exact Or.inl h
  | cons p rm ih =>
    rw [storeResults_cons] at heq
    cases horig : dlookup o p.1 with
    | none => rw [horig] at heq; cases heq
    | some orig =>
      rw [horig] at heq
      rcases ih _ heq with hd | ⟨id, orig2, hm, ho2, hkey⟩
      · by_cases hkp : key = (rt, orig)
        · subst hkp
          rw [cacheSet, dlookup_dinsert_self] at hd
          cases hd
          exact Or.inr ⟨p.1, orig, by cases p; exact List.mem_cons_self _ _, horig, rfl⟩
        · rw [cacheSet, dlookup_dinsert_ne _ _ _ _ hkp] at hd
          exact Or.inl hd
      · exact Or.inr ⟨id, orig2, List.mem_cons_of_mem _ hm, ho2, hkey⟩

@[simp] theorem storeFailed_nil (tm : List (Nat × String)) : storeFailed tm [] = tm := rfl

theorem storeFailed_cons (tm : List (Nat × String)) (it : Item) (f : List Item) :
    storeFailed tm (it :: f) = storeFailed (dinsert tm it.id (failMarker it.text)) f := rfl

theorem storeFailed_untouched (tm : List (Nat × String)) (f : List Item) (k : Nat)
    (hk : k ∉ f.map Item.id) :
    dlookup (storeFailed tm f) k = dlookup tm k := by
  induction f generalizing tm with
  | nil => rfl
  | cons it f ih =>
    rw [storeFailed_cons, ih _ (by intro hh; exact hk (by simp [hh])),
      dlookup_dinsert_ne _ _ _ _ (by intro hh; exact hk (by simp [hh]))]

theorem storeFailed_mem_last (tm : List (Nat × String)) (f : List Item) (it : Item)
    (hnd : (f.map Item.id).Nodup) (hit : it ∈ f) :
    dlookup (storeFailed tm f) it.id = some (failMarker it.text) := by
  induction f generalizing tm with
  | nil => cases hit
  | cons it2 f ih =>
    rw [List.map_cons, List.nodup_cons] at hnd
    rw [storeFailed_cons]
    rcases List.mem_cons.mp hit with hh | hh
    · subst hh
      rw [storeFailed_untouched _ _ _ hnd.1]
      exact dlookup_dinsert_self _ _ _
    · exact ih _ hnd.2 hh

theorem storeFailed_prov (tm : List (Nat × String)) (f : List Item) (k : Nat) (v : String)
    (h : dlookup (storeFailed tm f) k = some v) :
    dlookup tm k = some v ∨ ∃ it ∈ f, k = it.id ∧ v = failMarker it.text := by
  induction f generalizing tm with
  | nil => exact Or.inl h
  | cons it f ih =>
    rw [storeFailed_cons] at h
    rcases ih _ h with hd | ⟨it2, hm, hk, hv⟩
    · by_cases hkp : k = it.id
      · subst hkp
        rw [dlookup_dinsert_self] at hd
        cases hd
        exact Or.inr ⟨it, List.mem_cons_self _ _, rfl, rfl⟩
      · rw [dlookup_dinsert_ne _ _ _ _ hkp] at hd
        exact Or.inl hd
    · exact Or.inr ⟨it2, List.mem_cons_of_mem _ hm, hk, hv⟩

theorem storeFailed_keys_mono (tm : List (Nat × String)) (f : List Item) (k : Nat)
    (h : k ∈ tm.map Prod.fst) : k ∈ (storeFailed tm f).map Prod.fst := by
  induction f generalizing tm with
  | nil => exact h
  | cons it f ih =>
    rw [storeFailed_cons]
    exact ih _ ((mem_keys_dinsert _ _ _ _).mpr (Or.inl h))

theorem storeFailed_mem_keys (tm : List (Nat × String)) (f : List Item) (it : Item)
    (hit : it ∈ f) : it.id ∈ (storeFailed tm f).map Prod.fst := by
  induction f generalizing tm with
  | nil => cases hit
  | cons it2 f ih =>
    rw [storeFailed_cons]
    rcases List.mem_cons.mp hit with hh | hh
    · subst hh
      exact storeFailed_keys_mono _ _ _ ((mem_keys_dinsert _ _ _ _).mpr (Or.inr rfl))
    · exact ih _ hh

/-! ### Lemmas about the token-batch processing loop -/

@[simp] theorem processBatches_nil (oracle : Nat → Nat → Attempt) (maxRetry : Nat)
    (rt : String) (o : List (Nat × String)) (bno : Nat)
    (st : List (Nat × String) × Cache × Nat) :
    processBatches oracle maxRetry rt o [] bno st = some st := rfl

theorem processBatches_cons (oracle : Nat → Nat → Attempt) (maxRetry : Nat)
    (rt : String) (o : List (Nat × String)) (batch : List Item)
    (rest : List (List Item)) (bno : Nat) (st : List (Nat × String) × Cache × Nat) :
    processBatches oracle maxRetry rt o (batch :: rest) bno st =
      match storeResults rt o (st.1, st.2.1)
        (translate_with_retry (attemptsFor oracle maxRetry bno) batch [] 0).1 with
      | none => none
      | some tc =>
          processBatches oracle maxRetry rt o rest (bno + 1)
            (storeFailed tc.1
              (translate_with_retry (attemptsFor oracle maxRetry bno) batch [] 0).2.1,
             tc.2,
             st.2.2 +
               (translate_with_retry (attemptsFor oracle maxRetry bno) batch [] 0).2.2) :=
  rfl

theorem attemptsFor_mem_some {oracle : Nat → Nat → Attempt} {maxRetry bno : Nat}
    {resp : Resp} (h : some resp ∈ attemptsFor oracle maxRetry bno) :
    ∃ a, oracle bno a = some resp := by
  rw [attemptsFor, List.mem_map] at h
  obtain ⟨a, _, ha⟩ := h
  exact ⟨a, ha⟩

theorem processBatches_ok (oracle : Nat → Nat → Attempt) (maxRetry : Nat) (rt : String)
    (o : List (Nat × String)) (bs : List (List Item)) (bno : Nat)
    (st : List (Nat × String) × Cache × Nat)
    (hor : ∀ j, ∀ hj : j < bs.length, ∀ resp : Resp,
      some resp ∈ attemptsFor oracle maxRetry (bno + j) →
      ∀ k ∈ resp.map Prod.fst, k ∈ (bs.get ⟨j, hj⟩).map Item.id)
    (hin : ∀ b ∈ bs, ∀ it ∈ b, it.id ∈ o.map Prod.fst) :
    ∃ fin, processBatches oracle maxRetry rt o bs bno st = some fin := by
  induction bs generalizing bno st with
  | nil => exact ⟨st, rfl⟩
  | cons batch rest ih =>
    have hor0 : ∀ resp : Resp, some resp ∈ attemptsFor oracle maxRetry bno →
        ∀ k ∈ resp.map Prod.fst, k ∈ batch.map Item.id := by
      intro resp hresp k hk
      have h0 : (0 : Nat) < (batch :: rest).length := by simp
      have h1 := hor 0 h0 resp (by rwa [Nat.add_zero]) k hk
      simpa using h1
    have hor2 : ∀ j, ∀ hj : j < rest.length, ∀ resp : Resp,
        some resp ∈ attemptsFor oracle maxRetry (bno + 1 + j) →
        ∀ k ∈ resp.map Prod.fst, k ∈ (rest.get ⟨j, hj⟩).map Item.id := by
      intro j hj resp hresp k hk
      have hj2 : j + 1 < (batch :: rest).length := by simpa using Nat.succ_lt_succ hj
      have h1 := hor (j + 1) hj2 resp
        (by rw [show bno + (j + 1) = bno + 1 + j from by omega]; exact hresp) k hk
      simpa using h1
    have hrm : ∀ p ∈ (translate_with_retry (attemptsFor oracle maxRetry bno)
        batch [] 0).1, p.1 ∈ o.map Prod.fst := by
      intro p hp
      have hk : p.1 ∈ (translate_with_retry (attemptsFor oracle maxRetry bno)
          batch [] 0).1.map Prod.fst := List.mem_map_of_mem _ hp
      rcases twr_keys_from hk with hh | ⟨resp, hresp, hkk⟩
      · simp at hh
      · obtain ⟨it, hit, hid⟩ := List.mem_map.mp (hor0 resp hresp p.1 hkk)
        exact hid ▸ hin batch (List.mem_cons_self _ _) it hit
    rw [processBatches_cons]
    obtain ⟨tc, htc⟩ := storeResults_ok rt o (st.1, st.2.1) _ hrm
    rw [htc]
    exact ih (bno + 1) _ hor2 (fun b hb => hin b (List.mem_cons_of_mem _ hb))

theorem processBatches_keys_mono (oracle : Nat → Nat → Attempt) (maxRetry : Nat)
    (rt : String) (o : List (Nat × String)) (bs : List (List Item)) (bno : Nat)
    (st fin : List (Nat × String) × Cache × Nat) (k : Nat)
    (heq : processBatches oracle maxRetry rt o bs bno st = some fin)
    (hk : k ∈ st.1.map Prod.fst) : k ∈ fin.1.map Prod.fst := by
  induction bs generalizing bno st with
  | nil =>
    cases heq
    exact hk
  | cons batch rest ih =>
    rw [processBatches_cons] at heq
    cases htc : storeResults rt o (st.1, st.2.1)
        (translate_with_retry (attemptsFor oracle maxRetry bno) batch [] 0).1 with
    | none => rw [htc] at heq; cases heq
    | some tc =>
      rw [htc] at heq
      refine ih (bno + 1) _ heq ?_
      exact storeFailed_keys_mono _ _ _ (storeResults_tm_mem _ _ _ _ _ _ htc (Or.inl hk))

theorem processBatches_untouched (oracle : Nat → Nat → Attempt) (maxRetry : Nat)
    (rt : String) (o : List (Nat × String)) (bs : List (List Item)) (bno : Nat)
    (st fin : List (Nat × String) × Cache × Nat) (k : Nat)
    (hor : ∀ j, ∀ hj : j < bs.length, ∀ resp : Resp,
      some resp ∈ attemptsFor oracle maxRetry (bno + j) →
      ∀ k2 ∈ resp.map Prod.fst, k2 ∈ (bs.get ⟨j, hj⟩).map Item.id)
    (hk : ∀ b ∈ bs, k ∉ b.map Item.id)
    (heq : processBatches oracle maxRetry rt o bs bno st = some fin) :
    dlookup fin.1 k = dlookup st.1 k := by
  induction bs generalizing bno st with
  | nil =>
    cases heq
    rfl
  | cons batch rest ih =>
    have hor0 : ∀ resp : Resp, some resp ∈ attemptsFor oracle maxRetry bno →
        ∀ k2 ∈ resp.map Prod.fst, k2 ∈ batch.map Item.id := by
      intro resp hresp k2 hk2
      have h0 : (0 : Nat) < (batch :: rest).length := by simp
      have h1 := hor 0 h0 resp (by rwa [Nat.add_zero]) k2 hk2
      simpa using h1
    have hor2 : ∀ j, ∀ hj : j < rest.length, ∀ resp : Resp,
        some resp ∈ attemptsFor oracle maxRetry (bno + 1 + j) →
        ∀ k2 ∈ resp.map Prod.fst, k2 ∈ (rest.get ⟨j, hj⟩).map Item.id := by
      intro j hj resp hresp k2 hk2
      have hj2 : j + 1 < (batch :: rest).length := by simpa using Nat.succ_lt_succ hj
      have h1 := hor (j + 1) hj2 resp
        (by rw [show bno + (j + 1) = bno + 1 + j from by omega]; exact hresp) k2 hk2
      simpa using h1
    rw [processBatches_cons] at heq
    cases htc : storeResults rt o (st.1, st.2.1)
        (translate_with_retry (attemptsFor oracle maxRetry bno) batch [] 0).1 with
    | none => rw [htc] at heq; cases heq
    | some tc =>
      rw [htc] at heq
      have hbatch : k ∉ batch.map Item.id := hk batch (List.mem_cons_self _ _)
      have hrm : k ∉ ((translate_with_retry (attemptsFor oracle maxRetry bno)
          batch [] 0).1).map Prod.fst := by
        intro hh
        rcases twr_keys_from hh with h2 | ⟨resp, hresp, hkk⟩
        · simp at h2
        · exact hbatch (hor0 resp hresp k hkk)
      have hfail : k ∉ ((translate_with_retry (attemptsFor oracle maxRetry bno)
          batch [] 0).2.1).map Item.id := by
        intro hh
        obtain ⟨it, hit, hid⟩ := List.mem_map.mp hh
        exact hbatch (hid ▸ List.mem_map_of_mem Item.id
          ((twr_remaining_sublist _ _ _ _).mem hit))
      rw [ih (bno + 1) _ hor2 (fun b hb => hk b (List.mem_cons_of_mem _ hb)) heq]
      show dlookup (storeFailed tc.1 _) k = _
      rw [storeFailed_untouched _ _ _ hfail,
        storeResults_tm_untouched _ _ _ _ _ _ htc hrm]

theorem mem_dinsert {α β : Type} [DecidableEq α] {m : List (α × β)} {k : α} {v : β}
    {x : α × β} (h : x ∈ dinsert m k v) : x ∈ m ∨ x = (k, v) := by
  induction m with
  | nil =>
    rw [dinsert, List.mem_singleton] at h
    exact Or.inr h
  | cons p m ih =>
    rw [dinsert] at h
    by_cases hp : p.1 = k
    · rw [if_pos hp, List.mem_cons] at h
      rcases h with h | h
      · exact Or.inr h
      · exact Or.inl (List.mem_cons_of_mem _ h)
    · rw [if_neg hp, List.mem_cons] at h
      rcases h with h | h
      · exact Or.inl (h ▸ List.mem_cons_self _ _)
      · rcases ih h with h | h
        · exact Or.inl (List.mem_cons_of_mem _ h)
        · exact Or.inr h

theorem mem_applyResp_pair {acc : List (Nat × String)} {resp : Resp}
    {x : Nat × String} (h : x ∈ applyResp acc resp) : x ∈ acc ∨ x ∈ resp := by
  induction resp generalizing acc with
  | nil => exact Or.inl h
  | cons p resp ih =>
    rw [applyResp_cons] at h
    rcases ih h with h | h
    · rcases mem_dinsert h with h | h
      · exact Or.inl h
      · exact Or.inr (h ▸ (by cases p; exact List.mem_cons_self _ _))
    · exact Or.inr (List.mem_cons_of_mem _ h)

theorem twr_results_mem_pair {atts : List Attempt} {rem : List Item}
    {acc : List (Nat × String)} {n : Nat} {x : Nat × String}
    (h : x ∈ (translate_with_retry atts rem acc n).1) :
    x ∈ acc ∨ ∃ resp, some resp ∈ atts ∧ x ∈ resp := by
  induction atts generalizing rem acc n with
  | nil => exact Or.inl h
  | cons a rest ih =>
    by_cases hre : rem.isEmpty
    · rw [twr_cons_empty _ _ _ _ _ hre] at h
      exact Or.inl h
    · cases a with
      | none =>
        rw [twr_cons_none _ _ _ _ hre] at h
        rcases ih h with h | ⟨resp, hm, hp⟩
        · exact Or.inl h
        · exact Or.inr ⟨resp, List.mem_cons_of_mem _ hm, hp⟩
      | some resp =>
        rw [twr_cons_some _ _ _ _ _ hre] at h
        rcases ih h with h | ⟨resp2, hm, hp⟩
        · rcases mem_applyResp_pair h with h | h
          · exact Or.inl h
          · exact Or.inr ⟨resp, List.mem_cons_self _ _, h⟩
        · exact Or.inr ⟨resp2, List.mem_cons_of_mem _ hm, hp⟩

theorem processBatches_marker (oracle : Nat → Nat → Attempt) (maxRetry : Nat)
    (rt : String) (o : List (Nat × String)) (bs : List (List Item)) (bno : Nat)
    (st fin : List (Nat × String) × Cache × Nat)
    (hor : ∀ j, ∀ hj : j < bs.length, ∀ resp : Resp,
      some resp ∈ attemptsFor oracle maxRetry (bno + j) →
      ∀ k2 ∈ resp.map Prod.fst, k2 ∈ (bs.get ⟨j, hj⟩).map Item.id)
    (hnd : (bs.flatten.map Item.id).Nodup)
    (heq : processBatches oracle maxRetry rt o bs bno st = some fin) :
    ∀ j, ∀ hj : j < bs.length,
      ∀ it ∈ (translate_with_retry (attemptsFor oracle maxRetry (bno + j))
        (bs.get ⟨j, hj⟩) [] 0).2.1,
      dlookup fin.1 it.id = some (failMarker it.text) := by
  induction bs generalizing bno st with
  | nil =>
    intro j hj
    exact absurd hj (Nat.not_lt_zero j)
  | cons batch rest ih =>
    rw [List.flatten_cons, List.map_append, List.nodup_append] at hnd
    obtain ⟨hnd1, hnd2, hdisj⟩ := hnd
    have hor2 : ∀ j, ∀ hj : j < rest.length, ∀ resp : Resp,
        some resp ∈ attemptsFor oracle maxRetry (bno + 1 + j) →
        ∀ k2 ∈ resp.map Prod.fst, k2 ∈ (rest.get ⟨j, hj⟩).map Item.id := by
      intro j hj resp hresp k2 hk2
      have hj2 : j + 1 < (batch :: rest).length := by simpa using Nat.succ_lt_succ hj
      have h1 := hor (j + 1) hj2 resp
        (by rw [show bno + (j + 1) = bno + 1 + j from by omega]; exact hresp) k2 hk2
      simpa using h1
    rw [processBatches_cons] at heq
    cases htc : storeResults rt o (st.1, st.2.1)
        (translate_with_retry (attemptsFor oracle maxRetry bno) batch [] 0).1 with
    | none => rw [htc] at heq; cases heq
    | some tc =>
      rw [htc] at heq
      intro j hj it hit
      cases j with
      | zero =>
        have hit2 : it ∈ (translate_with_retry (attemptsFor oracle maxRetry bno)
            batch [] 0).2.1 := hit
        have hsub := twr_remaining_sublist (attemptsFor oracle maxRetry bno) batch [] 0
        have hfnd : (((translate_with_retry (attemptsFor oracle maxRetry bno)
            batch [] 0).2.1).map Item.id).Nodup :=
          (List.Sublist.map Item.id hsub).nodup hnd1
        have hidb : it.id ∈ batch.map Item.id :=
          List.mem_map_of_mem Item.id (hsub.mem hit2)
        have hkrest : ∀ b ∈ rest, it.id ∉ b.map Item.id := by
          intro b hb hh
          obtain ⟨it3, hit3, hid3⟩ := List.mem_map.mp hh
          refine hdisj hidb ?_
          rw [← hid3]
          exact List.mem_map_of_mem Item.id (List.mem_flatten.mpr ⟨b, hb, hit3⟩)
        rw [processBatches_untouched oracle maxRetry rt o rest (bno + 1)
          (storeFailed tc.1
            (translate_with_retry (attemptsFor oracle maxRetry bno) batch [] 0).2.1,
           tc.2,
           st.2.2 + (translate_with_retry (attemptsFor oracle maxRetry bno)
             batch [] 0).2.2) fin it.id hor2 hkrest heq]
        exact storeFailed_mem_last _ _ _ hfnd hit2
      | succ j =>
        have hj2 : j < rest.length := by simpa using hj
        have hit2 : it ∈ (translate_with_retry
            (attemptsFor oracle maxRetry (bno + 1 + j)) (rest.get ⟨j, hj2⟩) [] 0).2.1 := by
          rw [show bno + 1 + j = bno + (j + 1) from by omega]
          exact hit
        exact ih (bno + 1) _ hor2 hnd2 heq j hj2 it hit2

theorem processBatches_tm_prov (oracle : Nat → Nat → Attempt) (maxRetry : Nat)
    (rt : String) (o : List (Nat × String)) (bs : List (List Item)) (bno : Nat)
    (st fin : List (Nat × String) × Cache × Nat) (k : Nat) (v : String)
    (heq : processBatches oracle maxRetry rt o bs bno st = some fin)
    (h : dlookup fin.1 k = some v) :
    dlookup st.1 k = some v ∨
      (∃ b a resp, oracle b a = some resp ∧ (k, v) ∈ resp) ∨
      ∃ it, it ∈ bs.flatten ∧ k = it.id ∧ v = failMarker it.text := by
  induction bs generalizing bno st with
  | nil =>
    cases heq
    exact Or.inl h
  | cons batch rest ih =>
    rw [processBatches_cons] at heq
    cases htc : storeResults rt o (st.1, st.2.1)
        (translate_with_retry (attemptsFor oracle maxRetry bno) batch [] 0).1 with
    | none => rw [htc] at heq; cases heq
    | some tc =>
      rw [htc] at heq
      rcases ih (bno + 1) _ heq with hd | hmid | ⟨it, hflat, hk, hv⟩
      · rcases storeFailed_prov _ _ _ _ hd with hd2 | ⟨it, hitf, hk, hv⟩
        · rcases storeResults_tm_prov _ _ _ _ _ _ _ htc hd2 with hd3 | hrm
          · exact Or.inl hd3
          · rcases twr_results_mem_pair hrm with hacc | ⟨resp, hresp, hp⟩
            · cases hacc
            · obtain ⟨a, ha⟩ := attemptsFor_mem_some hresp
              exact Or.inr (Or.inl ⟨bno, a, resp, ha, hp⟩)
        · refine Or.inr (Or.inr ⟨it, ?_, hk, hv⟩)
          rw [List.flatten_cons, List.mem_append]
          exact Or.inl ((twr_remaining_sublist _ _ _ _).mem hitf)
      · exact Or.inr (Or.inl hmid)
      · refine Or.inr (Or.inr ⟨it, ?_, hk, hv⟩)
        rw [List.flatten_cons, List.mem_append]
        exact Or.inr hflat

theorem processBatches_covers (oracle : Nat → Nat → Attempt) (maxRetry : Nat)
    (rt : String) (o : List (Nat × String)) (bs : List (List Item)) (bno : Nat)
    (st fin : List (Nat × String) × Cache × Nat)
    (heq : processBatches oracle maxRetry rt o bs bno st = some fin) :
    ∀ b ∈ bs, ∀ it ∈ b, it.id ∈ fin.1.map Prod.fst := by
  induction bs generalizing bno st with
  | nil =>
    intro b hb
    cases hb
  | cons batch rest ih =>
    rw [processBatches_cons] at heq
    cases htc : storeResults rt o (st.1, st.2.1)
        (translate_with_retry (attemptsFor oracle maxRetry bno) batch [] 0).1 with
    | none => rw [htc] at heq; cases heq
    | some tc =>
      rw [htc] at heq
      intro b hb it hit
      rcases List.mem_cons.mp hb with hb1 | hb1
      · subst hb1
        rcases twr_coverage (attemptsFor oracle maxRetry bno) b [] 0 it hit with hf | hr
        · exact processBatches_keys_mono _ _ _ _ _ _ _ _ _ heq
            (storeFailed_mem_keys _ _ _ hf)
        · exact processBatches_keys_mono _ _ _ _ _ _ _ _ _ heq
            (storeFailed_keys_mono _ _ _
              (storeResults_tm_mem _ _ _ _ _ _ htc (Or.inr hr)))
      · exact ih (bno + 1) _ heq b hb1 it hit

theorem processBatches_cache_prov (oracle : Nat → Nat → Attempt) (maxRetry : Nat)
    (rt : String) (o : List (Nat × String)) (bs : List (List Item)) (bno : Nat)
    (st fin : List (Nat × String) × Cache × Nat) (key : String × String) (v : String)
    (heq : processBatches oracle maxRetry rt o bs bno st = some fin)
    (h : dlookup fin.2.1 key = some v) :
    dlookup st.2.1 key = some v ∨
      ∃ id orig, dlookup o id = some orig ∧ key = (rt, orig) ∧
        ∃ b a resp, oracle b a = some resp ∧ (id, v) ∈ resp := by
  induction bs generalizing bno st with
  | nil =>
    cases heq
    exact Or.inl h
  | cons batch rest ih =>
    rw [processBatches_cons] at heq
    cases htc : storeResults rt o (st.1, st.2.1)
        (translate_with_retry (attemptsFor oracle maxRetry bno) batch [] 0).1 with
    | none => rw [htc] at heq; cases heq
    | some tc =>
      rw [htc] at heq
      rcases ih (bno + 1) _ heq with hd | hright
      · rcases storeResults_cache_prov _ _ _ _ _ _ _ htc hd with hd2 | ⟨id, orig, hm, ho2, hkey⟩
        · exact Or.inl hd2
        · rcases twr_results_mem_pair hm with hacc | ⟨resp, hresp, hp⟩
          · cases hacc
          · obtain ⟨a, ha⟩ := attemptsFor_mem_some hresp
            exact Or.inr ⟨id, orig, ho2, hkey, bno, a, resp, ha, hp⟩
      · exact Or.inr hright

/-! ### Assembly lemmas for `call_llm_api_batch` -/

theorem safeOf_length (textList : List (Option String)) :
    (safeOf textList).length = textList.length := List.length_map _ _

theorem uncachedOf_eq_filter (c0 : Cache) (rt : String) (textList : List (Option String)) :
    uncachedOf c0 rt textList =
      (nonEmptyOf (safeOf textList)).filter (fun p => (cacheGet c0 rt p.2).isNone) := by
  rw [uncachedOf, cacheScan_uncached]

theorem mem_uncachedOf (c0 : Cache) (rt : String) (textList : List (Option String))
    (p : Nat × String) :
    p ∈ uncachedOf c0 rt textList ↔
      (safeOf textList)[p.1]? = some p.2 ∧ pyStrip p.2 ≠ "" ∧
        cacheGet c0 rt p.2 = none := by
  rw [uncachedOf_eq_filter, List.mem_filter, mem_nonEmptyOf]
  simp [and_assoc]

theorem uncachedOf_nodup_fst (c0 : Cache) (rt : String) (textList : List (Option String)) :
    ((uncachedOf c0 rt textList).map Prod.fst).Nodup := by
  rw [uncachedOf_eq_filter]
  exact (List.Sublist.map Prod.fst (List.filter_sublist _)).nodup (nonEmptyOf_nodup_fst _)

theorem uncachedItems_ids (u : List (Nat × String)) :
    (u.map (fun p => Item.mk p.1 p.2)).map Item.id = u.map Prod.fst := by
  rw [List.map_map]
  rfl

theorem mem_uncachedItems (u : List (Nat × String)) (it : Item) :
    it ∈ u.map (fun p => Item.mk p.1 p.2) ↔ (it.id, it.text) ∈ u := by
  rw [List.mem_map]
  constructor
  · rintro ⟨p, hp, rfl⟩
    cases p
    exact hp
  · intro h
    exact ⟨(it.id, it.text), h, rfl⟩

theorem oracleRespects_elim (oracle : Nat → Nat → Attempt) (maxRetry : Nat)
    (chunks : List (List Item))
    (h : oracleRespectsBatches oracle maxRetry chunks = true) :
    ∀ j, ∀ hj : j < chunks.length, ∀ resp : Resp,
      some resp ∈ attemptsFor oracle maxRetry (1 + j) →
      ∀ k ∈ resp.map Prod.fst, k ∈ (chunks.get ⟨j, hj⟩).map Item.id := by
  intro j hj resp hresp k hk
  rw [oracleRespectsBatches, List.all_eq_true] at h
  have hmem : ((j, chunks.get ⟨j, hj⟩) : Nat × List Item) ∈ chunks.enum := by
    rw [List.mem_enum_iff_getElem?]
    show chunks[j]? = some (chunks.get ⟨j, hj⟩)
    rw [List.getElem?_eq_getElem hj]
    rfl
  have h2 := h _ hmem
  rw [List.all_eq_true] at h2
  have h3 := h2 (some resp) (by
    show some resp ∈ attemptsFor oracle maxRetry (j + 1)
    rw [Nat.add_comm]
    exact hresp)
  have h4 : ((resp.map Prod.fst).all fun k2 =>
      decide (k2 ∈ (chunks.get ⟨j, hj⟩).map Item.id)) = true := h3
  rw [List.all_eq_true] at h4
  exact of_decide_eq_true (h4 k hk)

/-! ### Claim C6: empty-text bypass -/

/-- C6: successful runs of `call_llm_api_batch` handle empty input as a
bypass.  (a) When every normalized cell is empty or whitespace-only
(`None`/`NaN` normalize to `""`), the result is a list of empty strings of
the input's length with zero remote calls, zero cache reads and an
unchanged cache.  (b) In any (also mixed) input, an empty/whitespace cell
resolves to the empty string.  (c) The number of cache reads always equals
the number of non-empty cells, so empty cells never consume cache reads. -/
theorem esp2dsd_empty_bypass (cost : String → Nat) (maxTokens maxRetry : Nat)
    (pm : List (String × String)) (oracle : Nat → Nat → Attempt)
    (textList : List (Option String)) (rt : String) (c0 : Cache) (res : BatchOut)
    (hres : call_llm_api_batch cost maxTokens maxRetry pm oracle textList rt c0
      = some res) :
    ((∀ s ∈ safeOf textList, pyStrip s = "") →
        res = ⟨List.replicate textList.length "", c0, 0, 0⟩) ∧
      (∀ i : Nat, ∀ s : String, (safeOf textList)[i]? = some s → pyStrip s = "" →
        res.output[i]? = some "") ∧
      res.cacheReads = (nonEmptyOf (safeOf textList)).length := by
  have hallem : (∀ s ∈ safeOf textList, pyStrip s = "") →
      nonEmptyOf (safeOf textList) = [] := by
    intro hall
    rw [nonEmptyOf, List.filter_eq_nil_iff]
    intro p hp
    simp only [decide_eq_true_eq, Decidable.not_not]
    rw [List.mem_enum_iff_getElem?] at hp
    obtain ⟨hlt, heqq⟩ := List.getElem?_eq_some_iff.mp hp
    exact hall p.2 (by rw [← heqq]; exact List.getElem_mem hlt)
  simp only [call_llm_api_batch] at hres
  by_cases h1 : (nonEmptyOf (safeOf textList)).isEmpty
  · rw [if_pos h1] at hres
    cases hres
    refine ⟨fun _ => by rw [safeOf_length], ?_, ?_⟩
    · intro i s hs hstrip
      show (List.replicate (safeOf textList).length "")[i]? = some ""
      rw [List.getElem?_replicate,
        if_pos (List.getElem?_eq_some_iff.mp hs).1]
    · show 0 = (nonEmptyOf (safeOf textList)).length
      rw [List.isEmpty_iff.mp h1]
      rfl
  · rw [if_neg h1] at hres
    have hne : ¬ (∀ s ∈ safeOf textList, pyStrip s = "") := by
      intro hall
      exact h1 (by rw [hallem hall]; rfl)
    by_cases h2 : (cacheScan c0 rt (nonEmptyOf (safeOf textList))).2.1.isEmpty ∧
        (cacheScan c0 rt (nonEmptyOf (safeOf textList))).1.length =
          (nonEmptyOf (safeOf textList)).length
    · rw [if_pos h2] at hres
      cases hres
      refine ⟨fun hall => absurd hall hne, ?_, cacheScan_reads _ _ _⟩
      intro i s hs hstrip
      show (restoreCacheHit (safeOf textList) _)[i]? = some ""
      rw [restoreCacheHit_getElem _ _ _ _ hs, if_pos hstrip]
    · rw [if_neg h2] at hres
      cases hrp : resolvePrompt pm rt with
      | none =>
        rw [hrp] at hres
        cases hres
      | some tpl =>
        rw [hrp] at hres
        cases hpb : processBatches oracle maxRetry rt
            (origIdTextOf (cacheScan c0 rt (nonEmptyOf (safeOf textList))).2.1)
            (chunksOf cost maxTokens (cacheScan c0 rt (nonEmptyOf (safeOf textList))).2.1) 1
            ((cacheScan c0 rt (nonEmptyOf (safeOf textList))).1, c0, 0) with
        | none =>
          rw [hpb] at hres
          cases hres
        | some fin =>
          rw [hpb] at hres
          cases hres
          refine ⟨fun hall => absurd hall hne, ?_, cacheScan_reads _ _ _⟩
          intro i s hs hstrip
          show (restoreOutput (safeOf textList) fin.1)[i]? = some ""
          rw [restoreOutput_getElem _ _ _ _ hs, if_pos hstrip]

/-- Witness for C6 at an all-empty input (`None`, `""`, `" "`): the output
is three empty strings, the cache is untouched, and there are no remote
calls and no cache reads. -/
theorem esp2dsd_empty_bypass_witness :
    (⟨List.replicate 3 "", ([] : Cache), 0, 0⟩ : BatchOut) =
      ⟨List.replicate ([none, some "", some " "] : List (Option String)).length
        "", [], 0, 0⟩ ∧
      (⟨List.replicate 3 "", ([] : Cache), 0, 0⟩ : BatchOut).cacheReads =
        (nonEmptyOf (safeOf [none, some "", some " "])).length :=
  have h := esp2dsd_empty_bypass String.length 10 1 [("others", "T")]
    (fun _ _ => none) [none, some "", some " "] "DIAL" []
    ⟨List.replicate 3 "", [], 0, 0⟩ (by decide)
  ⟨h.1 (by decide), h.2.2⟩

/-! ### Claim C5: cache idempotence -/

/-- C5: when every non-empty item of the call is a cache hit (in
particular when re-running on identical input against a cache populated by
a previous identical run), `call_llm_api_batch` performs zero remote
invocations, leaves the cache unchanged, and returns the cached
translations in their original positions (empty cells resolve to `""`). -/
theorem esp2dsd_cache_idempotence (cost : String → Nat) (maxTokens maxRetry : Nat)
    (pm : List (String × String)) (oracle : Nat → Nat → Attempt)
    (textList : List (Option String)) (rt : String) (c0 : Cache)
    (hhit : ∀ p ∈ nonEmptyOf (safeOf textList), (cacheGet c0 rt p.2).isSome) :
    ∃ res, call_llm_api_batch cost maxTokens maxRetry pm oracle textList rt c0
        = some res ∧
      res.remoteCalls = 0 ∧ res.cache = c0 ∧
      res.output.length = textList.length ∧
      ∀ i : Nat, ∀ s : String, (safeOf textList)[i]? = some s →
        (pyStrip s = "" → res.output[i]? = some "") ∧
        (pyStrip s ≠ "" → res.output[i]? = cacheGet c0 rt s) := by
  simp only [call_llm_api_batch]
  by_cases h1 : (nonEmptyOf (safeOf textList)).isEmpty
  · rw [if_pos h1]
    refine ⟨_, rfl, rfl, rfl, by rw [List.length_replicate, safeOf_length], ?_⟩
    intro i s hs
    constructor
    · intro hstrip
      show (List.replicate (safeOf textList).length "")[i]? = some ""
      rw [List.getElem?_replicate, if_pos (List.getElem?_eq_some_iff.mp hs).1]
    · intro hstrip
      exfalso
      have : ((i, s) : Nat × String) ∈ nonEmptyOf (safeOf textList) :=
        (mem_nonEmptyOf _ _).mpr ⟨hs, hstrip⟩
      rw [List.isEmpty_iff.mp h1] at this
      cases this
  · rw [if_neg h1]
    have hu : (cacheScan c0 rt (nonEmptyOf (safeOf textList))).2.1 = [] := by
      rw [cacheScan_uncached, List.filter_eq_nil_iff]
      intro p hp
      cases hc : cacheGet c0 rt p.2 with
      | none =>
        have h3 := hhit p hp
        rw [hc] at h3
        cases h3
      | some c => simp [hc]
    have hlen : (cacheScan c0 rt (nonEmptyOf (safeOf textList))).1.length =
        (nonEmptyOf (safeOf textList)).length := by
      rw [cacheScan]
      rw [cacheScan_len_general c0 rt _ _ (nonEmptyOf_nodup_fst _) hhit (by simp)]
      simp
    rw [if_pos ⟨by rw [hu]; rfl, hlen⟩]
    refine ⟨_, rfl, rfl, rfl, by rw [restoreCacheHit_length, safeOf_length], ?_⟩
    intro i s hs
    constructor
    · intro hstrip
      show (restoreCacheHit (safeOf textList) _)[i]? = some ""
      rw [restoreCacheHit_getElem _ _ _ _ hs, if_pos hstrip]
    · intro hstrip
      have hmem : ((i, s) : Nat × String) ∈ nonEmptyOf (safeOf textList) :=
        (mem_nonEmptyOf _ _).mpr ⟨hs, hstrip⟩
      obtain ⟨c, hc⟩ := Option.isSome_iff_exists.mp (hhit _ hmem)
      show (restoreCacheHit (safeOf textList) _)[i]? = cacheGet c0 rt s
      rw [restoreCacheHit_getElem _ _ _ _ hs, if_neg hstrip, hc, cacheScan,
        cacheScan_hit_general c0 rt _ _ i s c (nonEmptyOf_nodup_fst _) (by simp) hmem hc]
      rfl

/-- Witness for C5: re-running on a cache populated with both non-empty
strings issues zero remote calls and returns the cached translations. -/
theorem esp2dsd_cache_idempotence_witness :
    (∀ p ∈ nonEmptyOf (safeOf [some "ab", some "", some "cd"]),
      (cacheGet [(("DIAL", "ab"), "AB"), (("DIAL", "cd"), "CD")] "DIAL" p.2).isSome) ∧
    ∃ res, call_llm_api_batch String.length 10 1 [("others", "T")] (fun _ _ => none)
        [some "ab", some "", some "cd"] "DIAL"
        [(("DIAL", "ab"), "AB"), (("DIAL", "cd"), "CD")] = some res ∧
      res.remoteCalls = 0 ∧ res.cache = [(("DIAL", "ab"), "AB"), (("DIAL", "cd"), "CD")] ∧
      res.output.length = ([some "ab", some "", some "cd"] : List (Option String)).length ∧
      ∀ i : Nat, ∀ s : String, (safeOf [some "ab", some "", some "cd"])[i]? = some s →
        (pyStrip s = "" → res.output[i]? = some "") ∧
        (pyStrip s ≠ "" → res.output[i]? =
          cacheGet [(("DIAL", "ab"), "AB"), (("DIAL", "cd"), "CD")] "DIAL" s) :=
  ⟨by decide, esp2dsd_cache_idempotence String.length 10 1 [("others", "T")]
    (fun _ _ => none) [some "ab", some "", some "cd"] "DIAL"
    [(("DIAL", "ab"), "AB"), (("DIAL", "cd"), "CD")] (by decide)⟩

/-! ### Claim C10: cache purity -/

/-- C10: every cache entry present after a successful `call_llm_api_batch`
run is either an entry of the initial cache or was created, under key
`(record_type, source text of id)`, from a pair `(id, v)` actually
returned by a successful remote response — the failure markers written for
unresolved items are never written to the cache. -/
theorem esp2dsd_cache_purity (cost : String → Nat) (maxTokens maxRetry : Nat)
    (pm : List (String × String)) (oracle : Nat → Nat → Attempt)
    (textList : List (Option String)) (rt : String) (c0 : Cache) (res : BatchOut)
    (hres : call_llm_api_batch cost maxTokens maxRetry pm oracle textList rt c0
      = some res) :
    ∀ key v, dlookup res.cache key = some v →
      dlookup c0 key = some v ∨
      ∃ id orig, key = (rt, orig) ∧ (safeOf textList)[id]? = some orig ∧
        ∃ b a resp, oracle b a = some resp ∧ (id, v) ∈ resp := by
  simp only [call_llm_api_batch] at hres
  by_cases h1 : (nonEmptyOf (safeOf textList)).isEmpty
  · rw [if_pos h1] at hres
    cases hres
    intro key v h
    exact Or.inl h
  · rw [if_neg h1] at hres
    by_cases h2 : (cacheScan c0 rt (nonEmptyOf (safeOf textList))).2.1.isEmpty ∧
        (cacheScan c0 rt (nonEmptyOf (safeOf textList))).1.length =
          (nonEmptyOf (safeOf textList)).length
    · rw [if_pos h2] at hres
      cases hres
      intro key v h
      exact Or.inl h
    · rw [if_neg h2] at hres
      cases hrp : resolvePrompt pm rt with
      | none =>
        rw [hrp] at hres
        cases hres
      | some tpl =>
        rw [hrp] at hres
        cases hpb : processBatches oracle maxRetry rt
            (origIdTextOf (cacheScan c0 rt (nonEmptyOf (safeOf textList))).2.1)
            (chunksOf cost maxTokens (cacheScan c0 rt (nonEmptyOf (safeOf textList))).2.1) 1
            ((cacheScan c0 rt (nonEmptyOf (safeOf textList))).1, c0, 0) with
        | none =>
          rw [hpb] at hres
          cases hres
        | some fin =>
          rw [hpb] at hres
          cases hres
          intro key v h
          rcases processBatches_cache_prov _ _ _ _ _ _ _ _ _ _ hpb h with
            hd | ⟨id, orig, ho, hkey, b, a, resp, horc, hp⟩
          · exact Or.inl hd
          · have hn := uncachedOf_nodup_fst c0 rt textList
            rw [show origIdTextOf
                (cacheScan c0 rt (nonEmptyOf (safeOf textList))).2.1 =
                uncachedOf c0 rt textList from origIdText_eq _ hn] at ho
            have hmem := dlookup_mem ho
            obtain ⟨hs, _, _⟩ := (mem_uncachedOf c0 rt textList (id, orig)).mp hmem
            exact Or.inr ⟨id, orig, hkey, hs, b, a, resp, horc, hp⟩

/-- Witness for C10: starting from an empty cache, the entry
`("DIAL","ab") → "X"` created by the run comes from the remote response
pair `(0, "X")` of source text `"ab"` at index 0. -/
theorem esp2dsd_cache_purity_witness :
    call_llm_api_batch String.length 10 1 [("others", "T")]
        (fun _ _ => some [(0, "X"), (2, "Y")]) [some "ab", some "", some "cd"]
        "DIAL" [] =
      some ⟨["X", "", "Y"], [(("DIAL", "ab"), "X"), (("DIAL", "cd"), "Y")], 1, 2⟩ ∧
    (dlookup ([] : Cache) ("DIAL", "ab") = some "X" ∨
      ∃ id orig, (("DIAL", "ab") : String × String) = ("DIAL", orig) ∧
        (safeOf [some "ab", some "", some "cd"])[id]? = some orig ∧
        ∃ b a resp, (fun _ _ => some [(0, "X"), (2, "Y")] : Nat → Nat → Attempt) b a
            = some resp ∧ (id, "X") ∈ resp) :=
  ⟨by decide,
    esp2dsd_cache_purity String.length 10 1 [("others", "T")]
      (fun _ _ => some [(0, "X"), (2, "Y")]) [some "ab", some "", some "cd"]
      "DIAL" [] ⟨["X", "", "Y"], [(("DIAL", "ab"), "X"), (("DIAL", "cd"), "Y")], 1, 2⟩
      (by decide) ("DIAL", "ab") "X" (by decide)⟩

/-! ### Claim C1: order preservation -/

/-- C1: for every input table and every sequence of remote responses
obeying the §6 interface contract, output row `i` of a successful
`call_llm_api_batch` run derives from input row `i`'s (normalized)
original text: empty/whitespace rows map to the empty string, cached rows
to their cached translation, and all other rows to either a translation
that the remote returned **under id `i`** or the failure marker embedding
row `i`'s source text — never to a value of a different row or of
batch-local order. -/
theorem esp2dsd_order_preservation (cost : String → Nat) (maxTokens maxRetry : Nat)
    (pm : List (String × String)) (oracle : Nat → Nat → Attempt)
    (textList : List (Option String)) (rt : String) (c0 : Cache) (res : BatchOut)
    (hcon : oracleRespectsBatches oracle maxRetry
      (chunksOf cost maxTokens (uncachedOf c0 rt textList)) = true)
    (hres : call_llm_api_batch cost maxTokens maxRetry pm oracle textList rt c0
      = some res) :
    res.output.length = textList.length ∧
    ∀ i : Nat, ∀ s : String, (safeOf textList)[i]? = some s →
      (pyStrip s = "" → res.output[i]? = some "") ∧
      (pyStrip s ≠ "" → ∀ c, cacheGet c0 rt s = some c → res.output[i]? = some c) ∧
      (pyStrip s ≠ "" → cacheGet c0 rt s = none →
        ∃ r, res.output[i]? = some r ∧
          ((∃ b a resp, oracle b a = some resp ∧ (i, r) ∈ resp) ∨
            r = failMarker s)) := by
  simp only [call_llm_api_batch] at hres
  by_cases h1 : (nonEmptyOf (safeOf textList)).isEmpty
  · rw [if_pos h1] at hres
    cases hres
    refine ⟨by rw [List.length_replicate, safeOf_length], ?_⟩
    intro i s hs
    have hestrip : pyStrip s = "" := by
      by_contra hne
      have hmem : ((i, s) : Nat × String) ∈ nonEmptyOf (safeOf textList) :=
        (mem_nonEmptyOf _ _).mpr ⟨hs, hne⟩
      rw [List.isEmpty_iff.mp h1] at hmem
      cases hmem
    refine ⟨?_, fun hne => absurd hestrip hne, fun hne => absurd hestrip hne⟩
    intro _
    show (List.replicate (safeOf textList).length "")[i]? = some ""
    rw [List.getElem?_replicate, if_pos (List.getElem?_eq_some_iff.mp hs).1]
  · rw [if_neg h1] at hres
    by_cases h2 : (cacheScan c0 rt (nonEmptyOf (safeOf textList))).2.1.isEmpty ∧
        (cacheScan c0 rt (nonEmptyOf (safeOf textList))).1.length =
          (nonEmptyOf (safeOf textList)).length
    · rw [if_pos h2] at hres
      cases hres
      refine ⟨by rw [restoreCacheHit_length, safeOf_length], ?_⟩
      intro i s hs
      refine ⟨?_, ?_, ?_⟩
      · intro hstrip
        show (restoreCacheHit (safeOf textList) _)[i]? = some ""
        rw [restoreCacheHit_getElem _ _ _ _ hs, if_pos hstrip]
      · intro hne c hc
        have hmem : ((i, s) : Nat × String) ∈ nonEmptyOf (safeOf textList) :=
          (mem_nonEmptyOf _ _).mpr ⟨hs, hne⟩
        show (restoreCacheHit (safeOf textList) _)[i]? = some c
        rw [restoreCacheHit_getElem _ _ _ _ hs, if_neg hne, cacheScan,
          cacheScan_hit_general c0 rt _ _ i s c (nonEmptyOf_nodup_fst _)
            (by simp) hmem hc]
        rfl
      · intro hne hcnone
        exfalso
        have hmemu : ((i, s) : Nat × String) ∈ uncachedOf c0 rt textList :=
          (mem_uncachedOf c0 rt textList (i, s)).mpr ⟨hs, hne, hcnone⟩
        have hthis : ((i, s) : Nat × String) ∈ ([] : List (Nat × String)) := by
          rw [← List.isEmpty_iff.mp h2.1]
          exact hmemu
        cases hthis
    · rw [if_neg h2] at hres
      cases hrp : resolvePrompt pm rt with
      | none =>
        rw [hrp] at hres
        cases hres
      | some tpl =>
        rw [hrp] at hres
        cases hpb : processBatches oracle maxRetry rt
            (origIdTextOf (cacheScan c0 rt (nonEmptyOf (safeOf textList))).2.1)
            (chunksOf cost maxTokens (cacheScan c0 rt (nonEmptyOf (safeOf textList))).2.1) 1
            ((cacheScan c0 rt (nonEmptyOf (safeOf textList))).1, c0, 0) with
        | none =>
          rw [hpb] at hres
          cases hres
        | some fin =>
          rw [hpb] at hres
          cases hres
          have hor := oracleRespects_elim oracle maxRetry _ hcon
          have hflat : (chunksOf cost maxTokens
              (cacheScan c0 rt (nonEmptyOf (safeOf textList))).2.1).flatten =
              ((cacheScan c0 rt (nonEmptyOf (safeOf textList))).2.1).map
                (fun p => Item.mk p.1 p.2) := by
            rw [chunksOf]
            exact chunk_flatten _ _ _
          refine ⟨by rw [restoreOutput_length, safeOf_length], ?_⟩
          intro i s hs
          refine ⟨?_, ?_, ?_⟩
          · intro hstrip
            show (restoreOutput (safeOf textList) fin.1)[i]? = some ""
            rw [restoreOutput_getElem _ _ _ _ hs, if_pos hstrip]
          · intro hne c hc
            have hmem : ((i, s) : Nat × String) ∈ nonEmptyOf (safeOf textList) :=
              (mem_nonEmptyOf _ _).mpr ⟨hs, hne⟩
            have hnotu : ∀ b ∈ chunksOf cost maxTokens
                (cacheScan c0 rt (nonEmptyOf (safeOf textList))).2.1,
                i ∉ b.map Item.id := by
              intro b hb hib
              obtain ⟨it, hitb, hid⟩ := List.mem_map.mp hib
              have hitflat : it ∈ (chunksOf cost maxTokens
                  (cacheScan c0 rt (nonEmptyOf (safeOf textList))).2.1).flatten :=
                List.mem_flatten.mpr ⟨b, hb, hitb⟩
              rw [hflat] at hitflat
              have hpair := (mem_uncachedItems _ _).mp hitflat
              obtain ⟨hs2, hne2, hcn⟩ :=
                (mem_uncachedOf c0 rt textList (it.id, it.text)).mp hpair
              rw [hid, hs] at hs2
              have htext : it.text = s := Option.some_injective _ hs2.symm
              rw [htext] at hcn
              rw [hcn] at hc
              cases hc
            have huntouched := processBatches_untouched oracle maxRetry rt
              (origIdTextOf (cacheScan c0 rt (nonEmptyOf (safeOf textList))).2.1)
              (chunksOf cost maxTokens
                (cacheScan c0 rt (nonEmptyOf (safeOf textList))).2.1) 1
              ((cacheScan c0 rt (nonEmptyOf (safeOf textList))).1, c0, 0) fin i
              hor hnotu hpb
            have htm0 : dlookup (cacheScan c0 rt (nonEmptyOf (safeOf textList))).1 i
                = some c := by
              rw [cacheScan, cacheScan_hit_general c0 rt _ _ i s c
                (nonEmptyOf_nodup_fst _) (by simp) hmem hc]
            show (restoreOutput (safeOf textList) fin.1)[i]? = some c
            rw [restoreOutput_getElem _ _ _ _ hs, if_neg hne, huntouched, htm0]
            rfl
          · intro hne hcnone
            have hpairu : ((i, s) : Nat × String) ∈
                (cacheScan c0 rt (nonEmptyOf (safeOf textList))).2.1 :=
              (mem_uncachedOf c0 rt textList (i, s)).mpr ⟨hs, hne, hcnone⟩
            have hitem : (⟨i, s⟩ : Item) ∈ (chunksOf cost maxTokens
                (cacheScan c0 rt (nonEmptyOf (safeOf textList))).2.1).flatten := by
              rw [hflat]
              exact (mem_uncachedItems _ _).mpr hpairu
            obtain ⟨b, hb, hitb⟩ := List.mem_flatten.mp hitem
            have hcov := processBatches_covers oracle maxRetry rt
              (origIdTextOf (cacheScan c0 rt (nonEmptyOf (safeOf textList))).2.1)
              (chunksOf cost maxTokens
                (cacheScan c0 rt (nonEmptyOf (safeOf textList))).2.1) 1
              ((cacheScan c0 rt (nonEmptyOf (safeOf textList))).1, c0, 0) fin
              hpb b hb _ hitb
            obtain ⟨v, hv⟩ := Option.isSome_iff_exists.mp
              ((dlookup_isSome_iff _ _).mpr hcov)
            refine ⟨v, ?_, ?_⟩
            · show (restoreOutput (safeOf textList) fin.1)[i]? = some v
              rw [restoreOutput_getElem _ _ _ _ hs, if_neg hne, hv]
              rfl
            · rcases processBatches_tm_prov oracle maxRetry rt _ _ 1 _ fin i v hpb hv
                with hd | hmid | ⟨it, hitfl, hid, hmv⟩
              · exfalso
                have hd2 : dlookup ((nonEmptyOf (safeOf textList)).foldl
                    (fun st p =>
                      match cacheGet c0 rt p.2 with
                      | some c => (dinsert st.1 p.1 c, st.2.1, st.2.2 + 1)
                      | none => (st.1, st.2.1 ++ [p], st.2.2 + 1))
                    ([], [], 0)).1 i = some v := by
                  rw [← cacheScan]
                  exact hd
                rcases cacheScan_tm_some_general c0 rt _ _ i v hd2 with h0 | ⟨t, hmn, hct⟩
                · cases h0
                · have hmem2 : ((i, s) : Nat × String) ∈ nonEmptyOf (safeOf textList) :=
                    (mem_nonEmptyOf _ _).mpr ⟨hs, hne⟩
                  have hts : t = s := nodup_fst_inj (nonEmptyOf_nodup_fst _) hmn hmem2
                  rw [hts, hcnone] at hct
                  cases hct
              · exact Or.inl hmid
              · right
                rw [hflat] at hitfl
                have hpair2 := (mem_uncachedItems _ _).mp hitfl
                obtain ⟨hs3, _, _⟩ :=
                  (mem_uncachedOf c0 rt textList (it.id, it.text)).mp hpair2
                rw [← hid, hs] at hs3
                have htext : it.text = s := Option.some_injective _ hs3.symm
                rw [hmv, htext]

/-- Witness for C1: a 3-row input with one empty row; the remote answers
both non-empty rows under their ids in one attempt. -/
theorem esp2dsd_order_preservation_witness :
    oracleRespectsBatches (fun _ _ => some [(0, "X"), (2, "Y")]) 1
      (chunksOf String.length 10 (uncachedOf [] "DIAL" [some "ab", some "", some "cd"]))
      = true ∧
    call_llm_api_batch String.length 10 1 [("others", "T")]
        (fun _ _ => some [(0, "X"), (2, "Y")]) [some "ab", some "", some "cd"]
        "DIAL" [] =
      some ⟨["X", "", "Y"], [(("DIAL", "ab"), "X"), (("DIAL", "cd"), "Y")], 1, 2⟩ ∧
    (BatchOut.mk ["X", "", "Y"] [(("DIAL", "ab"), "X"), (("DIAL", "cd"), "Y")] 1 2).output.length
      = ([some "ab", some "", some "cd"] : List (Option String)).length :=
  ⟨by decide, by decide,
    (esp2dsd_order_preservation String.length 10 1 [("others", "T")]
      (fun _ _ => some [(0, "X"), (2, "Y")]) [some "ab", some "", some "cd"] "DIAL" []
      ⟨["X", "", "Y"], [(("DIAL", "ab"), "X"), (("DIAL", "cd"), "Y")], 1, 2⟩
      (by decide) (by decide)).1⟩

/-! ### Claim C4: terminal unresolved items get a visible failure marker -/

/-- C4: in every successful run obeying the §6 interface contract, every
batch item still unresolved after the final retry attempt (`MAX_RETRY + 1`
total attempts) appears in the output at its original position `it.id`
with the visible failure marker embedding its original source text; the
marker is never the empty string, so no item is silently dropped or left
empty. -/
theorem esp2dsd_terminal_failure_marker (cost : String → Nat) (maxTokens maxRetry : Nat)
    (pm : List (String × String)) (oracle : Nat → Nat → Attempt)
    (textList : List (Option String)) (rt : String) (c0 : Cache) (res : BatchOut)
    (hcon : oracleRespectsBatches oracle maxRetry
      (chunksOf cost maxTokens (uncachedOf c0 rt textList)) = true)
    (hres : call_llm_api_batch cost maxTokens maxRetry pm oracle textList rt c0
      = some res) :
    ∀ j, ∀ hj : j < (chunksOf cost maxTokens (uncachedOf c0 rt textList)).length,
      ∀ it ∈ (translate_with_retry (attemptsFor oracle maxRetry (1 + j))
          ((chunksOf cost maxTokens (uncachedOf c0 rt textList)).get ⟨j, hj⟩) [] 0).2.1,
        res.output[it.id]? = some (failMarker it.text) ∧ failMarker it.text ≠ "" := by
  have hmark_ne : ∀ t : String, failMarker t ≠ "" := by
    intro t hh
    have hlen := congrArg String.length hh
    rw [failMarker, String.length_append, String.length_append] at hlen
    rw [show ("[翻訳失敗: " : String).length = 7 from by decide,
      show ("]" : String).length = 1 from by decide] at hlen
    simp at hlen
  simp only [call_llm_api_batch] at hres
  by_cases h1 : (nonEmptyOf (safeOf textList)).isEmpty
  · intro j hj
    exfalso
    have hu : uncachedOf c0 rt textList = [] := by
      rw [uncachedOf_eq_filter, List.isEmpty_iff.mp h1]
      rfl
    rw [hu] at hj
    have hz : (chunksOf cost maxTokens ([] : List (Nat × String))).length = 0 := rfl
    rw [hz] at hj
    exact absurd hj (Nat.not_lt_zero j)
  · rw [if_neg h1] at hres
    by_cases h2 : (cacheScan c0 rt (nonEmptyOf (safeOf textList))).2.1.isEmpty ∧
        (cacheScan c0 rt (nonEmptyOf (safeOf textList))).1.length =
          (nonEmptyOf (safeOf textList)).length
    · intro j hj
      exfalso
      have hu : uncachedOf c0 rt textList = [] := List.isEmpty_iff.mp h2.1
      rw [hu] at hj
      have hz : (chunksOf cost maxTokens ([] : List (Nat × String))).length = 0 := rfl
      rw [hz] at hj
      exact absurd hj (Nat.not_lt_zero j)
    · rw [if_neg h2] at hres
      cases hrp : resolvePrompt pm rt with
      | none =>
        rw [hrp] at hres
        cases hres
      | some tpl =>
        rw [hrp] at hres
        cases hpb : processBatches oracle maxRetry rt
            (origIdTextOf (cacheScan c0 rt (nonEmptyOf (safeOf textList))).2.1)
            (chunksOf cost maxTokens (cacheScan c0 rt (nonEmptyOf (safeOf textList))).2.1) 1
            ((cacheScan c0 rt (nonEmptyOf (safeOf textList))).1, c0, 0) with
        | none =>
          rw [hpb] at hres
          cases hres
        | some fin =>
          rw [hpb] at hres
          cases hres
          have hor := oracleRespects_elim oracle maxRetry _ hcon
          have hflat : (chunksOf cost maxTokens
              (cacheScan c0 rt (nonEmptyOf (safeOf textList))).2.1).flatten =
              ((cacheScan c0 rt (nonEmptyOf (safeOf textList))).2.1).map
                (fun p => Item.mk p.1 p.2) := by
            rw [chunksOf]
            exact chunk_flatten _ _ _
          have hndflat : ((chunksOf cost maxTokens
              (cacheScan c0 rt (nonEmptyOf (safeOf textList))).2.1).flatten.map
                Item.id).Nodup := by
            rw [hflat, uncachedItems_ids]
            exact uncachedOf_nodup_fst c0 rt textList
          intro j hj it hit
          have hmarker := processBatches_marker oracle maxRetry rt
            (origIdTextOf (cacheScan c0 rt (nonEmptyOf (safeOf textList))).2.1)
            (chunksOf cost maxTokens
              (cacheScan c0 rt (nonEmptyOf (safeOf textList))).2.1) 1
            ((cacheScan c0 rt (nonEmptyOf (safeOf textList))).1, c0, 0) fin
            hor hndflat hpb j hj it hit
          have hitbatch : it ∈ (chunksOf cost maxTokens
              (cacheScan c0 rt (nonEmptyOf (safeOf textList))).2.1).get ⟨j, hj⟩ :=
            (twr_remaining_sublist _ _ _ _).mem hit
          have hitflat : it ∈ (chunksOf cost maxTokens
              (cacheScan c0 rt (nonEmptyOf (safeOf textList))).2.1).flatten :=
            List.mem_flatten.mpr ⟨_, List.get_mem _ _ _, hitbatch⟩
          rw [hflat] at hitflat
          have hpair := (mem_uncachedItems _ _).mp hitflat
          obtain ⟨hs3, hne3, _⟩ :=
            (mem_uncachedOf c0 rt textList (it.id, it.text)).mp hpair
          refine ⟨?_, hmark_ne it.text⟩
          show (restoreOutput (safeOf textList) fin.1)[it.id]? =
            some (failMarker it.text)
          rw [restoreOutput_getElem _ _ _ _ hs3, if_neg hne3, hmarker]
          rfl

/-- Witness for C4 at the spec's terminal-failure scenario: the remote
only ever returns id 0 for the batch `[{0,"ab"},{2,"cd"}]`, so after all
`MAX_RETRY + 1 = 2` attempts item `{2,"cd"}` is unresolved and row 2 of
the output carries the failure marker embedding `"cd"`. -/
theorem esp2dsd_terminal_failure_marker_witness :
    oracleRespectsBatches (fun _ _ => some [(0, "X")]) 1
      (chunksOf String.length 10 (uncachedOf [] "DIAL" [some "ab", some "", some "cd"]))
      = true ∧
    call_llm_api_batch String.length 10 1 [("others", "T")]
        (fun _ _ => some [(0, "X")]) [some "ab", some "", some "cd"] "DIAL" [] =
      some ⟨["X", "", "[翻訳失敗: cd]"], [(("DIAL", "ab"), "X")], 2, 2⟩ ∧
    ((BatchOut.mk ["X", "", "[翻訳失敗: cd]"] [(("DIAL", "ab"), "X")] 2 2).output[2]? =
        some (failMarker "cd") ∧ failMarker "cd" ≠ "") :=
  ⟨by decide, by decide,
    esp2dsd_terminal_failure_marker String.length 10 1 [("others", "T")]
      (fun _ _ => some [(0, "X")]) [some "ab", some "", some "cd"] "DIAL" []
      ⟨["X", "", "[翻訳失敗: cd]"], [(("DIAL", "ab"), "X")], 2, 2⟩
      (by decide) (by decide) 0 (by decide) ⟨2, "cd"⟩ (by decide)⟩

end Esp2Dsd
